import Mathlib

/-!
Verification development for `scripts/generate_today.py`, a daily batch that
collects AI-news candidates from RSS feeds, deduplicates, filters, buckets and
ranks them, selects a diverse subset of at most three, enriches them (via an
external analysis service or a local fallback template) and writes a JSON
digest.

Python strings are modelled as `List Char` (Lean `Char` is a Unicode scalar
value, as is a Python `str` code point).  Machine-level caveats, noted where
they apply:
* `str.lower` is modelled by ASCII lowercasing (`Char.toLower`); the keyword
  tables and tags in this program are ASCII/Japanese, where this coincides
  with Python.
* `datetime` values and their ISO-8601 renderings are modelled by integer
  timestamps; `dateutil.parser.parse` applied to an `isoformat()` output is
  the identity on these, which is how the script uses it (the sort key in
  `collect_candidates` re-parses the stored `published_at` string).
* `feedparser` entry date fields (`published`/`updated`/`created`) and their
  best-effort parsing (`safe_date`/`pick_published`) are abstracted into the
  resolved UTC timestamp `Entry.published : Option Int` that `pick_published`
  would return.
-/

/-! ## Python string primitives -/

/-- Python strings as lists of Unicode scalar values. -/
abbrev Str := List Char

/-- The characters for which Python `str.isspace` holds (the set stripped by
`str.strip()` and matched by the regex class `\s` in Unicode mode). -/
def pyIsSpace (c : Char) : Bool :=
  c.toNat = 9 || c.toNat = 10 || c.toNat = 11 || c.toNat = 12 || c.toNat = 13 ||
  (28 ≤ c.toNat && c.toNat ≤ 32) || c.toNat = 133 || c.toNat = 160 ||
  c.toNat = 0x1680 || (0x2000 ≤ c.toNat && c.toNat ≤ 0x200A) ||
  c.toNat = 0x2028 || c.toNat = 0x2029 || c.toNat = 0x202F ||
  c.toNat = 0x205F || c.toNat = 0x3000

/-- Python `s.strip()` (no argument): remove leading and trailing whitespace. -/
def pyStrip (s : Str) : Str :=
  ((s.dropWhile pyIsSpace).reverse.dropWhile pyIsSpace).reverse

/-- Python `s.lower()`, restricted to ASCII case mapping (see header note). -/
def lowerStr (s : Str) : Str := s.map Char.toLower

/-- ASCII letter test (`str.isascii() and str.isalpha()` on one character). -/
def isAsciiAlpha (c : Char) : Bool :=
  ('A' ≤ c && c ≤ 'Z') || ('a' ≤ c && c ≤ 'z')

/-- ASCII digit test. -/
def isDigitCh (c : Char) : Bool := '0' ≤ c && c ≤ '9'

/-- Python `s.startswith(pat)`. -/
def leadMatch : Str → Str → Bool
  | [], _ => true
  | _ :: _, [] => false
  | p :: ps, c :: cs => p = c && leadMatch ps cs

/-- Python `pat in s` (substring containment). -/
def strHas (pat : Str) : Str → Bool
  | [] => leadMatch pat []
  | c :: cs => leadMatch pat (c :: cs) || strHas pat cs

/-- Split a string at the first occurrence of `ch` (both parts exclude `ch`);
`none` when `ch` does not occur.  `some (a, b)` models Python
`s.split(ch, 1)` (and `s.find(ch)` having index `a.length`). -/
def splitAtCh (ch : Char) : Str → Option (Str × Str)
  | [] => none
  | c :: cs =>
    if c = ch then some ([], cs)
    else
      match splitAtCh ch cs with
      | some (a, b) => some (c :: a, b)
      | none => none

/-- Python `s.split(sep)` for a one-character separator on a nonempty string
(`"".split(sep)` is `[""]`, which this also returns). -/
def splitSep (sep : Char) : Str → List Str
  | [] => [[]]
  | c :: cs =>
    if c = sep then [] :: splitSep sep cs
    else
      match splitSep sep cs with
      | h :: t => (c :: h) :: t
      | [] => [[c]]

/-- Python `sep.join(pieces)` for a one-character separator. -/
def joinSep (sep : Char) : List Str → Str
  | [] => []
  | [x] => x
  | x :: y :: t => x ++ sep :: joinSep sep (y :: t)

/-! ## UTF-8 and percent-encoding (`urllib.parse.quote_plus` / `unquote`) -/

/-- UTF-8 encoding of one scalar value (what `str.encode("utf-8")` emits). -/
def utf8EncodeCh (c : Char) : List Nat :=
  let n := c.toNat
  if n < 128 then [n]
  else if n < 2048 then [192 + n / 64, 128 + n % 64]
  else if n < 65536 then [224 + n / 4096, 128 + n / 64 % 64, 128 + n % 64]
  else [240 + n / 262144, 128 + n / 4096 % 64, 128 + n / 64 % 64, 128 + n % 64]

/-- UTF-8 encoding of a string. -/
def utf8EncodeStr : Str → List Nat
  | [] => []
  | c :: cs => utf8EncodeCh c ++ utf8EncodeStr cs

/-- UTF-8 continuation byte test. -/
def contByte (b : Nat) : Bool := 128 ≤ b && b ≤ 191

/-- Second-byte validity for a three-byte lead (excludes overlong forms and
surrogates, as strict UTF-8 does). -/
def cont3 (b b2 : Nat) : Bool :=
  (b = 224 && 160 ≤ b2 && b2 ≤ 191) ||
  (225 ≤ b && b ≤ 236 && contByte b2) ||
  (b = 237 && 128 ≤ b2 && b2 ≤ 159) ||
  (238 ≤ b && b ≤ 239 && contByte b2)

/-- Second-byte validity for a four-byte lead (excludes overlong forms and
values above U+10FFFF). -/
def cont4 (b b2 : Nat) : Bool :=
  (b = 240 && 144 ≤ b2 && b2 ≤ 191) ||
  (241 ≤ b && b ≤ 243 && contByte b2) ||
  (b = 244 && 128 ≤ b2 && b2 ≤ 143)

/-- CPython `bytes.decode("utf-8", errors="replace")`: strict UTF-8 with one
U+FFFD substituted per maximal subpart of an ill-formed sequence (decoding
resumes at the first offending byte). -/
def utf8DecodeRep : List Nat → Str
  | [] => []
  | [b] => if b < 128 then [Char.ofNat b] else ['�']
  | b :: b2 :: bs =>
    if b < 128 then Char.ofNat b :: utf8DecodeRep (b2 :: bs)
    else if 194 ≤ b && b ≤ 223 then
      if contByte b2 then
        Char.ofNat ((b - 192) * 64 + (b2 - 128)) :: utf8DecodeRep bs
      else '�' :: utf8DecodeRep (b2 :: bs)
    else if 224 ≤ b && b ≤ 239 then
      if cont3 b b2 then
        match bs with
        | [] => ['�']
        | b3 :: bs3 =>
          if contByte b3 then
            Char.ofNat ((b - 224) * 4096 + (b2 - 128) * 64 + (b3 - 128)) ::
              utf8DecodeRep bs3
          else '�' :: utf8DecodeRep (b3 :: bs3)
      else '�' :: utf8DecodeRep (b2 :: bs)
    else if 240 ≤ b && b ≤ 244 then
      if cont4 b b2 then
        match bs with
        | [] => ['�']
        | b3 :: bs3 =>
          if contByte b3 then
            match bs3 with
            | [] => ['�']
            | b4 :: bs4 =>
              if contByte b4 then
                Char.ofNat ((b - 240) * 262144 + (b2 - 128) * 4096 +
                  (b3 - 128) * 64 + (b4 - 128)) :: utf8DecodeRep bs4
              else '�' :: utf8DecodeRep (b4 :: bs4)
          else '�' :: utf8DecodeRep (b3 :: bs3)
      else '�' :: utf8DecodeRep (b2 :: bs)
    else '�' :: utf8DecodeRep (b2 :: bs)
termination_by l => l.length
decreasing_by all_goals simp_all [List.length_cons] <;> omega

/-- Uppercase hexadecimal digit, as `quote` emits (`%02X`). -/
def hexDigitCh (n : Nat) : Char := Char.ofNat (if n < 10 then 48 + n else 55 + n)

/-- Hexadecimal digit test, both cases (the keys of `_hextobyte`). -/
def isHexCh (c : Char) : Bool :=
  isDigitCh c || ('A' ≤ c && c ≤ 'F') || ('a' ≤ c && c ≤ 'f')

/-- Value of one hexadecimal digit. -/
def hexValCh (c : Char) : Nat :=
  if isDigitCh c then c.toNat - 48
  else if 'A' ≤ c && c ≤ 'F' then c.toNat - 55
  else c.toNat - 87

/-- Bytes left literal by `quote(…, safe='')`: the `always_safe` set
(ASCII letters, digits, `_`, `.`, `-`, `~`). -/
def safeByte (b : Nat) : Bool :=
  (48 ≤ b && b ≤ 57) || (65 ≤ b && b ≤ 90) || (97 ≤ b && b ≤ 122) ||
  b = 95 || b = 46 || b = 45 || b = 126

/-- Byte-level body of `quote_plus`: space to `+`, safe bytes literal, the
rest `%XX`.  Python's `quote_plus(s, safe='')` takes one of two branches
(`quote(s, ' ')` then replacing spaces, or `quote(s, '')`); on UTF-8 byte
streams both reduce to exactly this map, since byte 32 arises only from the
space character. -/
def quotePlusBytes : List Nat → Str
  | [] => []
  | b :: bs =>
    if b = 32 then '+' :: quotePlusBytes bs
    else if safeByte b then Char.ofNat b :: quotePlusBytes bs
    else '%' :: hexDigitCh (b / 16) :: hexDigitCh (b % 16) :: quotePlusBytes bs

/-- `urllib.parse.quote_plus(s, safe='')` as used by `urlencode`. -/
def quotePlus (s : Str) : Str := quotePlusBytes (utf8EncodeStr s)

/-- `urllib.parse.unquote_to_bytes` on an ASCII run, written as a left-to-right
scan: every `%` followed by two hex digits becomes that byte, any other `%` is
kept literally.  (Python splits the string on `%` and inspects the first two
characters of each piece; the two formulations agree because the characters a
piece contributes beyond its escape are copied verbatim either way.) -/
def unquoteToBytes : Str → List Nat
  | [] => []
  | c :: h1 :: h2 :: r =>
    if c = '%' then
      if isHexCh h1 && isHexCh h2 then
        (hexValCh h1 * 16 + hexValCh h2) :: unquoteToBytes r
      else 37 :: unquoteToBytes (h1 :: h2 :: r)
    else c.toNat :: unquoteToBytes (h1 :: h2 :: r)
  | c :: cs => (if c = '%' then 37 else c.toNat) :: unquoteToBytes cs
termination_by l => l.length
decreasing_by all_goals simp_all [List.length_cons] <;> omega

/-- ASCII test for one character. -/
def isAsciiCh (c : Char) : Bool := c.toNat < 128

/-- Decode one maximal ASCII run the way `unquote` does: resolve `%XX`
escapes to bytes, then UTF-8-decode the run with `errors="replace"`. -/
def uqRun (run : Str) : Str := utf8DecodeRep (unquoteToBytes run)

/-- Body of `unquote`: `_asciire` splits the input into maximal ASCII runs,
which are percent-decoded, while non-ASCII characters pass through verbatim.
`acc` accumulates the current ASCII run in reverse. -/
def uqGo : Str → Str → Str
  | acc, [] => uqRun acc.reverse
  | acc, c :: cs =>
    if isAsciiCh c then uqGo (c :: acc) cs
    else uqRun acc.reverse ++ c :: uqGo [] cs

/-- `urllib.parse.unquote(s)` (with its `'%' not in s` fast path). -/
def pyUnquote (s : Str) : Str := if '%' ∈ s then uqGo [] s else s

/-- `urllib.parse.unquote_plus`-style decoding used by `parse_qsl`:
`+` becomes a space, then `unquote`. -/
def unquotePlus (s : Str) : Str :=
  pyUnquote (s.map fun c => if c = '+' then ' ' else c)

/-! ## `parse_qsl` / `urlencode` -/

/-- `urllib.parse.parse_qsl(qs, keep_blank_values=True)`: split on `&`, skip
empty pieces, split each piece at its first `=` (absent `=` means empty
value), percent-decode names and values. -/
def parseQsl (qs : Str) : List (Str × Str) :=
  if qs = [] then []
  else
    (splitSep '&' qs).foldr
      (fun piece acc =>
        if piece = [] then acc
        else
          match splitAtCh '=' piece with
          | some (n, v) => (unquotePlus n, unquotePlus v) :: acc
          | none => (unquotePlus piece, []) :: acc)
      []

/-- `urllib.parse.urlencode(q)` on a list of pairs (default `quote_plus`). -/
def urlencodeL (q : List (Str × Str)) : Str :=
  joinSep '&' (q.map fun kv => quotePlus kv.1 ++ '=' :: quotePlus kv.2)

/-! ## `urlparse` / `urlunparse` -/

/-- Result of `urllib.parse.urlparse`. -/
structure UrlParts where
  scheme : Str
  netloc : Str
  path : Str
  params : Str
  query : Str
  fragment : Str
deriving DecidableEq, Repr

/-- Characters in `urllib.parse.scheme_chars`. -/
def schemeChar (c : Char) : Bool :=
  isAsciiAlpha c || isDigitCh c || c = '+' || c = '-' || c = '.'

/-- Scheme extraction step of `urlsplit`: the text before the first `:` is a
scheme when it is nonempty, starts with an ASCII letter and consists of
scheme characters; it is then lowercased. -/
def splitSchemePart (u : Str) : Str × Str :=
  match splitAtCh ':' u with
  | some (pre, post) =>
    match pre with
    | [] => ([], u)
    | p :: ps =>
      if isAsciiAlpha p && (p :: ps).all schemeChar then (lowerStr (p :: ps), post)
      else ([], u)
  | none => ([], u)

/-- Delimiters ending a netloc in `_splitnetloc`. -/
def netlocDelim (c : Char) : Bool := c = '/' || c = '?' || c = '#'

/-- `_splitnetloc(url, 2)` after the leading `//` has been dropped. -/
def splitNetlocPart (u : Str) : Str × Str :=
  (u.takeWhile (fun c => !netlocDelim c), u.dropWhile (fun c => !netlocDelim c))

/-- `urlsplit` raises `ValueError("Invalid IPv6 URL")` when exactly one of
`[`, `]` occurs in the netloc; `true` means no raise.  (The bracketed-host
content validation of newer CPython and the `_checknetloc` NFKC check are not
modelled; they too only ever raise, on inputs this development never treats
as normalizable.) -/
def bracketsOk (netloc : Str) : Bool :=
  (netloc.any fun c => c = '[') = (netloc.any fun c => c = ']')

/-- `urllib.parse.urlsplit(u)` (scheme, netloc, path, query, fragment);
`none` models the `ValueError` path.  Tab, CR and LF are removed first
(`_UNSAFE_URL_BYTES_TO_REMOVE`); the netloc is carved out before the
fragment, and the fragment before the query, exactly as in CPython. -/
def urlsplitM (u0 : Str) : Option (Str × Str × Str × Str × Str) :=
  let u1 := u0.filter fun c => !(c = '\t' || c = '\r' || c = '\n')
  let sp := splitSchemePart u1
  let nl :=
    if leadMatch ['/', '/'] sp.2 then splitNetlocPart (sp.2.drop 2)
    else ([], sp.2)
  if !bracketsOk nl.1 then none
  else
    let fr :=
      match splitAtCh '#' nl.2 with
      | some (a, b) => (a, b)
      | none => (nl.2, [])
    let qr :=
      match splitAtCh '?' fr.1 with
      | some (a, b) => (a, b)
      | none => (fr.1, [])
    some (sp.1, nl.1, qr.1, qr.2, fr.2)

/-- `_splitparams(p)`: split path parameters at the first `;` that follows the
last `/` (or the first `;` outright when the path has no `/`).  Callers only
invoke this when `;` occurs in `p`, so the `find` never fails. -/
def splitParamsPart (p : Str) : Str × Str :=
  if '/' ∈ p then
    let pre := (p.reverse.dropWhile fun c => c ≠ '/').reverse
    let seg := (p.reverse.takeWhile fun c => c ≠ '/').reverse
    match splitAtCh ';' seg with
    | some (a, b) => (pre ++ a, b)
    | none => (p, [])
  else
    match splitAtCh ';' p with
    | some (a, b) => (a, b)
    | none => (p, [])

/-- `urllib.parse.urlparse`. -/
def urlparseM (u : Str) : Option UrlParts :=
  match urlsplitM u with
  | none => none
  | some (scheme, netloc, rest, query, fragment) =>
    let pp := if ';' ∈ rest then splitParamsPart rest else (rest, [])
    some ⟨scheme, netloc, pp.1, pp.2, query, fragment⟩

/-- `urllib.parse.urlunsplit`. -/
def urlunsplitP (scheme netloc url query fragment : Str) : Str :=
  let url1 :=
    if netloc ≠ [] ∨ leadMatch ['/', '/'] url then
      '/' :: '/' :: (netloc ++
        (if url ≠ [] ∧ ¬ leadMatch ['/'] url then '/' :: url else url))
    else url
  let url2 := if scheme ≠ [] then scheme ++ ':' :: url1 else url1
  let url3 := if query ≠ [] then url2 ++ '?' :: query else url2
  if fragment ≠ [] then url3 ++ '#' :: fragment else url3

/-- `urllib.parse.urlunparse`. -/
def urlunparseP (scheme netloc u params query fragment : Str) : Str :=
  urlunsplitP scheme netloc (if params ≠ [] then u ++ ';' :: params else u)
    query fragment

/-! ## `normalize_url` (generate_today.py lines 58-66) -/

/-- Strip trailing `/` from a path (`path.rstrip("/")`). -/
def rstripSlash (s : Str) : Str :=
  (s.reverse.dropWhile fun c => c = '/').reverse

/-- `normalize_url`: trim, parse, drop `utm_*` query parameters, re-encode
the query, strip the path's trailing slashes (defaulting to `/`), coerce the
scheme to `https`, lowercase the netloc, discard the fragment.  `none` models
the `ValueError` raise inside `urlparse`. -/
def normalize_url (url : Str) : Option Str :=
  match urlparseM (pyStrip url) with
  | none => none
  | some u =>
    let q := (parseQsl u.query).filter
      fun kv => !leadMatch ("utm_".toList) (lowerStr kv.1)
    let query := urlencodeL q
    let path := if rstripSlash u.path = [] then ['/'] else rstripSlash u.path
    let scheme0 := if u.scheme = [] then "https".toList else u.scheme
    let scheme :=
      if scheme0 = "http".toList then "https".toList else scheme0
    some (urlunparseP scheme (lowerStr u.netloc) path u.params query [])


/-! ## Keyword tables and classifiers (generate_today.py lines 101-144) -/

/-- `AI_KEYWORDS` (relevance filter). -/
def AI_KEYWORDS : List Str :=
  (["ai", "artificial intelligence", "machine learning", "deep learning",
    "llm", "gpt", "chatgpt", "claude", "gemini", "foundation model",
    "agent", "inference", "training", "benchmark", "transformer",
    "gpu", "nvidia", "chip", "semiconductor",
    "ai act", "regulation", "governance", "copyright", "export controls",
    "生成ai", "人工知能", "大規模言語モデル", "推論", "学習", "規制", "半導体"
   ] : List String).map String.toList

/-- `looks_ai_related`: any keyword occurs in the lowercased
`title + " " + summary`. -/
def looks_ai_related (title summary : Str) : Bool :=
  let blob := lowerStr (title ++ ' ' :: summary)
  AI_KEYWORDS.any fun k => strHas k blob

/-- Market keywords of `infer_bucket`. -/
def marketKw : List Str :=
  (["funding", "valuation", "investment", "ipo", "earnings", "revenue",
    "acquisition", "merger", "deal", "partnership", "pricing", "layoff"
   ] : List String).map String.toList

/-- Policy keywords of `infer_bucket`. -/
def policyKw : List Str :=
  (["regulation", "ai act", "law", "policy", "government", "ban",
    "copyright", "antitrust", "export", "controls", "sanction", "compliance"
   ] : List String).map String.toList

/-- Tech keywords of `infer_bucket`. -/
def techKw : List Str :=
  (["model", "release", "benchmark", "training", "inference", "agent",
    "chip", "gpu", "architecture", "open source", "dataset", "token",
    "context"] : List String).map String.toList

/-- Does any keyword of the group occur in the text? -/
def kwHit (kws : List Str) (t : Str) : Bool := kws.any fun k => strHas k t

/-- `infer_bucket`: lowercase `title + " " + summary`, test policy, then
market, then tech keywords; default `tech`. -/
def infer_bucket (title summary : Str) : Str :=
  let t := lowerStr (title ++ ' ' :: summary)
  if kwHit policyKw t then "policy".toList
  else if kwHit marketKw t then "market".toList
  else if kwHit techKw t then "tech".toList
  else "tech".toList

/-- `source_priority`: tier 1 for first-party-lab names, tier 2 for the
Japanese secondary sources, tier 3 otherwise. -/
def source_priority (name : Str) : Nat :=
  let n := lowerStr name
  if (["openai", "anthropic", "deepmind", "google", "hugging face"]
      : List String).any (fun k => strHas k.toList n) then 1
  else if (["itmedia", "ainow"] : List String).any
      (fun k => strHas k.toList n) then 2
  else 3

/-! ## `strip_html` (generate_today.py lines 91-95) -/

/-- One pass of `re.sub(r"<[^>]+>", " ", s)`: at `<`, if a later `>` exists
with at least one character in between, the whole `<…>` becomes one space
and scanning resumes after `>`; otherwise `<` is kept.  The fuel is the
string length; each step consumes at least one character, so with
`fuel = s.length` the fuel-exhaustion branch is unreachable. -/
def stripTagsF : Nat → Str → Str
  | 0, s => s
  | _, [] => []
  | fuel + 1, c :: rest =>
    if c = '<' then
      match splitAtCh '>' rest with
      | some (btw, after) =>
        if btw = [] then '<' :: stripTagsF fuel rest
        else ' ' :: stripTagsF fuel after
      | none => '<' :: stripTagsF fuel rest
    else c :: stripTagsF fuel rest

/-- `re.sub(r"\s+", " ", s)`: collapse each maximal whitespace run to one
space.  The flag records whether the previous character was whitespace. -/
def collapseGo : Bool → Str → Str
  | _, [] => []
  | prev, c :: rest =>
    if pyIsSpace c then
      if prev then collapseGo true rest else ' ' :: collapseGo true rest
    else c :: collapseGo false rest

/-- `strip_html`: drop tags, collapse whitespace, strip. -/
def strip_html (s : Str) : Str :=
  pyStrip (collapseGo false (stripTagsF s.length s))

/-! ## Data model -/

/-- One parsed feed entry, as `collect_candidates` consumes it.  `link` and
`title` use `[]` for a missing or empty (falsy) value; `published` is the
resolved UTC timestamp `pick_published` would return (`none` when no date
field parses — see the header note on date abstraction). -/
structure Entry where
  link : Str
  title : Str
  summary : Str
  description : Str
  published : Option Int
deriving DecidableEq, Repr

/-- One candidate dict as built in `collect_candidates` (same field names). -/
structure Candidate where
  source : Str
  original_title : Str
  original_url : Str
  published_at : Int
  summary_raw : Str
  bucket : Str
  priority : Nat
deriving DecidableEq, Repr

/-- Stable insertion of `x` into a sorted list: `x` goes before the first
element it is `le`-below-or-tied-with.  Used to model Python's stable
ascending `sorted`/`list.sort`. -/
def pyInsert (le : α → α → Bool) (x : α) : List α → List α
  | [] => [x]
  | y :: t => if le x y then x :: y :: t else y :: pyInsert le x t

/-- Stable ascending sort.  For a total, transitive `le` the stable
ascending sort is unique, so this computes exactly what Python's Timsort
returns. -/
def pySort (le : α → α → Bool) : List α → List α
  | [] => []
  | x :: t => pyInsert le x (pySort le t)

/-! ## `collect_candidates` (generate_today.py lines 154-203) -/

/-- The per-entry loop of one feed, threading `(items, seen_urls)`.  A
`ValueError` from `normalize_url` (the `none` case) propagates to the
per-feed `except`, aborting the rest of this feed while keeping what was
already accumulated. -/
def feedStep (now : Int) (name : Str) :
    List Entry → List Candidate × List Str → List Candidate × List Str
  | [], st => st
  | e :: es, (items, seen) =>
    if e.link = [] ∨ e.title = [] then feedStep now name es (items, seen)
    else
      match normalize_url e.link with
      | none => (items, seen)
      | some nurl =>
        if nurl ∈ seen then feedStep now name es (items, seen)
        else
          let summary :=
            strip_html (if e.summary ≠ [] then e.summary else e.description)
          let t := strip_html e.title
          if !looks_ai_related t summary then feedStep now name es (items, seen)
          else
            feedStep now name es
              (items ++ [⟨name, t, nurl, e.published.getD now,
                summary.take 1500, infer_bucket t summary,
                source_priority name⟩],
               nurl :: seen)

/-- Sort key of `collect_candidates`: ascending `(priority, -timestamp)` —
`a` may precede `b` iff `a`'s key is at most `b`'s. -/
def candLe (a b : Candidate) : Bool :=
  decide (a.priority < b.priority) ||
  (decide (a.priority = b.priority) && decide (b.published_at ≤ a.published_at))

/-- `collect_candidates` on one run's fetched feeds.  `none` entries model
feeds whose fetch/parse raised (they contribute nothing, collection
continues); each feed's entries are capped at `PER_FEED_LIMIT = 12`; the
accumulated items are stable-sorted by `candLe` and truncated to
`TOTAL_CANDIDATES = 80`. -/
def collect_candidates (now : Int)
    (feeds : List (Str × Option (List Entry))) : List Candidate :=
  let st := feeds.foldl
    (fun st f =>
      match f.2 with
      | none => st
      | some entries => feedStep now f.1 (entries.take 12) st)
    ([], [])
  (pySort candLe st.1).take 80

/-- Number of distinct `source` values in a candidate list. -/
def distinctSources (cands : List Candidate) : Nat :=
  (cands.map Candidate.source).dedup.length

/-! ## `pick_three_diverse` (generate_today.py lines 206-235) -/

/-- Phase-1 step: for one bucket, pick the first candidate (in sort order)
with that bucket and an unused source. -/
def phase1Step (cands : List Candidate)
    (st : List Candidate × List Str) (bucket : Str) :
    List Candidate × List Str :=
  match cands.find?
      (fun it => decide (it.source ∉ st.2) && decide (it.bucket = bucket)) with
  | some it => (st.1 ++ [it], st.2 ++ [it.source])
  | none => st

/-- Phase 2: scan candidates in order, appending any with an unused source,
stopping as soon as three are picked. -/
def phase2 :
    List Candidate → List Candidate × List Str → List Candidate × List Str
  | [], st => st
  | it :: rest, (picked, used) =>
    if it.source ∈ used then phase2 rest (picked, used)
    else
      if (picked ++ [it]).length = 3 then (picked ++ [it], used ++ [it.source])
      else phase2 rest (picked ++ [it], used ++ [it.source])

/-- `pick_three_diverse`: fill the `market`, `policy`, `tech` slots in that
order, then top up to three from the remaining sources, truncate to three. -/
def pick_three_diverse (cands : List Candidate) : List Candidate :=
  let st1 := (["market", "policy", "tech"] : List String).foldl
    (fun st b => phase1Step cands st b.toList) ([], [])
  let st2 := if st1.1.length < 3 then phase2 cands st1 else st1
  st2.1.take 3

/-! ## JSON values and the payloads (generate_today.py lines 338-393) -/

/-- Values `json.loads` can produce.  Numbers are modelled as integers: the
script never computes with response numbers, it only moves them around. -/
inductive JVal where
  | jnull : JVal
  | jbool : Bool → JVal
  | jnum : Int → JVal
  | jstr : Str → JVal
  | jarr : List JVal → JVal
  | jobj : List (Str × JVal) → JVal

/-- Python truthiness of a JSON value. -/
def truthy : JVal → Bool
  | .jnull => false
  | .jbool b => b
  | .jnum n => decide (n ≠ 0)
  | .jstr s => decide (s ≠ [])
  | .jarr l => !l.isEmpty
  | .jobj f => !f.isEmpty

mutual
/-- Python `==` on JSON values (structural equality), written as a boolean
because `JVal` is a nested inductive. -/
def jeq : JVal → JVal → Bool
  | .jnull, .jnull => true
  | .jbool a, .jbool b => a == b
  | .jnum a, .jnum b => a == b
  | .jstr a, .jstr b => a == b
  | .jarr a, .jarr b => jeqL a b
  | .jobj a, .jobj b => jeqF a b
  | _, _ => false
def jeqL : List JVal → List JVal → Bool
  | [], [] => true
  | x :: xs, y :: ys => jeq x y && jeqL xs ys
  | _, _ => false
def jeqF : List (Str × JVal) → List (Str × JVal) → Bool
  | [], [] => true
  | (k, v) :: xs, (l, w) :: ys => k == l && jeq v w && jeqF xs ys
  | _, _ => false
end

/-- Membership under Python `==` (the test a `set` performs). -/
def jvalMem (x : JVal) : List JVal → Bool
  | [] => false
  | y :: t => jeq x y || jvalMem x t

/-- The distinct values of a list under Python `==` (the contents of
`set(l)`; order is irrelevant downstream, everything gets sorted). -/
def jdedup : List JVal → List JVal
  | [] => []
  | x :: t => if jvalMem x (jdedup t) then jdedup t else x :: jdedup t

/-- `isinstance(v, dict)`. -/
def isObj : JVal → Bool
  | .jobj _ => true
  | _ => false

/-- Key lookup in a field list (first occurrence; `json.loads` dicts have
unique keys, so first and last coincide). -/
def jlook : List (Str × JVal) → Str → Option JVal
  | [], _ => none
  | (k, v) :: t, key => if k = key then some v else jlook t key

/-- `v.get(key)` on a value known to be a dict (`none`: key absent). -/
def jget : JVal → Str → Option JVal
  | .jobj fields, key => jlook fields key
  | _, _ => none

/-- `v.get(key)` on an arbitrary value: non-dicts raise `AttributeError`
(the `error` case); a missing key yields `None` (`jnull`). -/
def jgetE : JVal → Str → Except Unit JVal
  | .jobj fields, key => .ok ((jlook fields key).getD .jnull)
  | _, _ => .error ()

/-- Dict assignment `d[key] = v`: replace in place when the key exists,
append otherwise (CPython preserves insertion position of existing keys). -/
def jsetFields : List (Str × JVal) → Str → JVal → List (Str × JVal)
  | [], key, v => [(key, v)]
  | (k, w) :: t, key, v =>
    if k = key then (k, v) :: t else (k, w) :: jsetFields t key v

/-- Dict assignment on a `JVal` known to be a dict. -/
def jset : JVal → Str → JVal → JVal
  | .jobj fields, key, v => .jobj (jsetFields fields key v)
  | x, _, _ => x

/-- Python string `≤`: lexicographic by code point. -/
def strLe : Str → Str → Bool
  | [], _ => true
  | _ :: _, [] => false
  | a :: x, b :: y => if a < b then true else if b < a then false else strLe x y

/-- `sorted(list({...}))` on a set of strings: the distinct values in
ascending code-point order. -/
def sortedStrs (l : List Str) : List Str := pySort strLe l.dedup

/-- Comparisons `sorted` can perform between JSON values: numbers with
numbers (bools counting as 0/1) and strings with strings.  (CPython also
compares lists elementwise; a list-valued `source` field is the only way to
reach that, and nothing here exercises it — modelled as incomparable.) -/
def jle : JVal → JVal → Option Bool
  | .jnum x, .jnum y => some (decide (x ≤ y))
  | .jbool x, .jbool y => some (!x || y)
  | .jbool x, .jnum y => some (decide ((if x then (1 : Int) else 0) ≤ y))
  | .jnum x, .jbool y => some (decide (x ≤ (if y then (1 : Int) else 0)))
  | .jstr x, .jstr y => some (strLe x y)
  | _, _ => none

/-- Are two values comparable? -/
def jComparable (a b : JVal) : Bool := (jle a b).isSome

/-- Is every pair of values in the list comparable? -/
def allComparable : List JVal → Bool
  | [] => true
  | x :: t => t.all (jComparable x) && allComparable t

/-- `sorted(l)` on JSON values: succeeds when every pair is comparable
(with an incomparable pair CPython's Timsort raises `TypeError` in all but
contrived comparison orders). -/
def pySortedJ (l : List JVal) : Except Unit (List JVal) :=
  if allComparable l then .ok (pySort (fun a b => (jle a b).getD true) l)
  else .error ()

/-- One snapshot of the clock for a run: the `datetime.now(timezone.utc)`
reads of a single invocation (timestamp, its date's `isoformat()`, and the
full `isoformat()`), assumed not to straddle midnight. -/
structure Clock where
  now : Int
  dateIso : Str
  genIso : Str

/-- The `mk(a)` template of `fallback_payload`. -/
def mkFallbackItem (a : Candidate) : JVal :=
  .jobj [
    ("impact_level".toList, .jstr ("Medium".toList)),
    ("importance_score".toList, .jnum 60),
    ("score_breakdown".toList, .jobj [
      ("market_impact".toList, .jnum 20),
      ("business_impact".toList, .jnum 20),
      ("japan_relevance".toList, .jnum 15),
      ("confidence".toList, .jnum 5)]),
    ("title_ja".toList, .jstr (a.original_title.take 30)),
    ("one_sentence".toList, .jstr
      (if a.summary_raw.take 60 = [] then "要約なし".toList
       else a.summary_raw.take 60)),
    ("fact_summary".toList, .jarr [
      .jstr (if a.summary_raw.take 50 = [] then "情報なし".toList
             else a.summary_raw.take 50),
      .jstr ("一次情報はリンク参照".toList)]),
    ("implications".toList, .jarr [
      .jstr ("影響評価は後続改善で強化可能".toList),
      .jstr ("日本市場観点の追加余地あり".toList)]),
    ("outlook".toList, .jarr [
      .jstr ("次回更新で追記".toList),
      .jstr ("追加ソースで補強予定".toList)]),
    ("original_title".toList, .jstr a.original_title),
    ("original_url".toList, .jstr a.original_url),
    ("published_at".toList, .jnum a.published_at),
    ("source".toList, .jstr a.source)]

/-- `fallback_payload(picked)`. -/
def fallback_payload (clock : Clock) (picked : List Candidate) : JVal :=
  .jobj [
    ("date_iso".toList, .jstr clock.dateIso),
    ("items".toList, .jarr (picked.map mkFallbackItem)),
    ("generated_at".toList, .jstr clock.genIso),
    ("version".toList, .jstr ("B1-RSS-Fallback-1.0".toList)),
    ("sources".toList, .jarr
      ((sortedStrs (picked.map Candidate.source)).map JVal.jstr))]

/-! ## `main` (generate_today.py lines 367-393) -/

/-- Outcome of `openai_structurize(picked)`: `noKey` models the missing
credential (the function returns `None`), `raised` any exception out of the
request/JSON parsing, `returned v` a successfully parsed JSON value. -/
inductive LLMOutcome where
  | noKey : LLMOutcome
  | raised : LLMOutcome
  | returned : JVal → LLMOutcome

/-- The acceptance test of `main`:
`structured and isinstance(structured, dict) and
isinstance(structured.get("items"), list) and len(structured["items"]) == 3`. -/
def acceptB (v : JVal) : Bool :=
  truthy v && isObj v &&
    (match jget v ("items".toList) with
     | some (.jarr xs) => decide (xs.length = 3)
     | _ => false)

/-- `sorted(list({it.get("source") for it in payload["items"] if
it.get("source")}))` — any `AttributeError`/`TypeError` escapes to the
enclosing `except`. -/
def llmSources (items : List JVal) : Except Unit (List JVal) := do
  let raw ← items.mapM fun it => jgetE it ("source".toList)
  pySortedJ (jdedup (raw.filter truthy))

/-- The accepted-response branch of `main`: stamp `generated_at`, `version`
and the recomputed `sources` onto the returned dict. -/
def adoptStructured (clock : Clock) (v : JVal) : Except Unit JVal := do
  let items := match jget v ("items".toList) with
    | some (.jarr xs) => xs
    | _ => []
  let s ← llmSources items
  .ok (jset (jset (jset v ("generated_at".toList) (.jstr clock.genIso))
    ("version".toList) (.jstr ("B1-RSS-OpenAI-1.0".toList)))
    ("sources".toList) (.jarr s))

/-- The payload `main` writes: candidates are collected and three picked;
an accepted analysis response is adopted (errors during adoption fall into
the `except` and fall back), anything else takes `fallback_payload`.  The
function is total: no outcome of the analysis collaborator escapes as a
process failure. -/
def mainPayload (clock : Clock) (feeds : List (Str × Option (List Entry)))
    (outcome : LLMOutcome) : JVal :=
  let picked := pick_three_diverse (collect_candidates clock.now feeds)
  match outcome with
  | .noKey => fallback_payload clock picked
  | .raised => fallback_payload clock picked
  | .returned v =>
    if acceptB v then
      match adoptStructured clock v with
      | .ok p => p
      | .error _ => fallback_payload clock picked
    else fallback_payload clock picked

/-- Length of the `items` field of a payload (0 when absent or not a list). -/
def payloadItemsLen (p : JVal) : Nat :=
  match jget p ("items".toList) with
  | some (.jarr xs) => xs.length
  | _ => 0


/-! ## General lemmas about the model -/

theorem pyInsert_perm (le : α → α → Bool) (x : α) (l : List α) :
    (pyInsert le x l).Perm (x :: l) := by
  induction l with
  | nil => simp [pyInsert]
  | cons y t ih =>
    simp only [pyInsert]
    split
    · exact List.Perm.refl _
    · exact (List.Perm.cons y ih).trans (List.Perm.swap x y t)

theorem pySort_perm (le : α → α → Bool) (l : List α) :
    (pySort le l).Perm l := by
  induction l with
  | nil => simp [pySort]
  | cons x t ih =>
    exact (pyInsert_perm le x (pySort le t)).trans (List.Perm.cons x ih)

theorem mem_pySort (le : α → α → Bool) (l : List α) (x : α) :
    x ∈ pySort le l ↔ x ∈ l := (pySort_perm le l).mem_iff

/-! ## Claims -/

/-- C1 counterexample: the claim asserts `https://example.com/a/?B=1`
normalizes to the key `https://example.com/a?b=1` and that case differences
never yield distinct keys; in fact query-parameter case is preserved, so it
normalizes to `https://example.com/a?B=1`, and path case is preserved, so
`http://Example.com/Post/?utm_campaign=x` and `https://example.com/post`
normalize to the distinct keys `https://example.com/Post` and
`https://example.com/post`. -/
theorem normalize_url_case_counterexample :
    normalize_url ("https://example.com/a/?B=1".toList) =
      some ("https://example.com/a?B=1".toList) ∧
    "https://example.com/a?B=1".toList ≠ "https://example.com/a?b=1".toList ∧
    normalize_url ("http://Example.com/Post/?utm_campaign=x".toList) =
      some ("https://example.com/Post".toList) ∧
    normalize_url ("https://example.com/post".toList) =
      some ("https://example.com/post".toList) ∧
    "https://example.com/Post".toList ≠ "https://example.com/post".toList := by
  exact ⟨by decide, by decide, by decide, by decide, by decide⟩

/-- C1 (amended): `normalize_url` maps `https://example.com/a?utm_source=x&b=1`
to `https://example.com/a?b=1`; host case, trailing slash, `utm_` parameters
and `http`-vs-`https` are all normalized away, but query-parameter and path
case are preserved: `https://example.com/a/?B=1` keys to
`https://example.com/a?B=1`, and the pair
`http://Example.com/Post/?utm_campaign=x` / `https://example.com/post` keys
to `https://example.com/Post` / `https://example.com/post` respectively. -/
theorem normalize_url_examples :
    normalize_url ("https://example.com/a?utm_source=x&b=1".toList) =
      some ("https://example.com/a?b=1".toList) ∧
    normalize_url ("https://example.com/a/?B=1".toList) =
      some ("https://example.com/a?B=1".toList) ∧
    normalize_url ("http://Example.com/Post/?utm_campaign=x".toList) =
      some ("https://example.com/Post".toList) ∧
    normalize_url ("https://example.com/post".toList) =
      some ("https://example.com/post".toList) := by
  exact ⟨by decide, by decide, by decide, by decide⟩

/-- C4: `infer_bucket` lowercases `title + " " + summary` and returns the
first of `policy`, `market`, `tech` (in that fixed order) whose keyword group
has a substring hit, defaulting to `tech`; in particular a text hitting both
a policy and a market keyword is classified `policy`. -/
theorem infer_bucket_priority (title summary : Str) :
    (kwHit policyKw (lowerStr (title ++ ' ' :: summary)) = true →
      infer_bucket title summary = "policy".toList) ∧
    (kwHit policyKw (lowerStr (title ++ ' ' :: summary)) = false →
     kwHit marketKw (lowerStr (title ++ ' ' :: summary)) = true →
      infer_bucket title summary = "market".toList) ∧
    (kwHit policyKw (lowerStr (title ++ ' ' :: summary)) = false →
     kwHit marketKw (lowerStr (title ++ ' ' :: summary)) = false →
      infer_bucket title summary = "tech".toList) := by
  refine ⟨fun h1 => ?_, fun h1 h2 => ?_, fun h1 h2 => ?_⟩
  · simp [infer_bucket, h1]
  · simp [infer_bucket, h1, h2]
  · simp [infer_bucket, h1, h2]

/-- C4 witness at a concrete input hitting both a policy keyword
(`regulation`) and a market keyword (`funding`). -/
theorem infer_bucket_priority_witness :
    kwHit policyKw (lowerStr ("New AI regulation".toList ++ ' ' ::
      "funding impact".toList)) = true ∧
    infer_bucket ("New AI regulation".toList) ("funding impact".toList) =
      "policy".toList :=
  ⟨by decide,
   (infer_bucket_priority ("New AI regulation".toList)
     ("funding impact".toList)).1 (by decide)⟩

/-- C9: the `items` of `fallback_payload` (and its `version` and `sources`)
depend only on the selected candidates, not on the clock: two runs on the
same Selection differ at most in `date_iso` and `generated_at`. -/
theorem fallback_payload_deterministic (c1 c2 : Clock)
    (picked : List Candidate) :
    jget (fallback_payload c1 picked) ("items".toList) =
      jget (fallback_payload c2 picked) ("items".toList) ∧
    jget (fallback_payload c1 picked) ("version".toList) =
      jget (fallback_payload c2 picked) ("version".toList) ∧
    jget (fallback_payload c1 picked) ("sources".toList) =
      jget (fallback_payload c2 picked) ("sources".toList) := by
  exact ⟨rfl, rfl, rfl⟩

/-- C7: a returned analysis response failing the acceptance test (in
particular one whose `items` is not a list of exactly 3 entries) makes the
run produce the fallback-templated payload for the whole Selection, carrying
the fallback version tag; `mainPayload` is total, so the failure never
escapes as a process failure. -/
theorem main_falls_back_on_bad_items (clock : Clock)
    (feeds : List (Str × Option (List Entry))) (v : JVal)
    (h : acceptB v = false) :
    mainPayload clock feeds (.returned v) =
      fallback_payload clock
        (pick_three_diverse (collect_candidates clock.now feeds)) ∧
    jget (mainPayload clock feeds (.returned v)) ("version".toList) =
      some (.jstr ("B1-RSS-Fallback-1.0".toList)) := by
  have h1 : mainPayload clock feeds (.returned v) =
      fallback_payload clock
        (pick_three_diverse (collect_candidates clock.now feeds)) := by
    simp [mainPayload, h]
  exact ⟨h1, by rw [h1]; rfl⟩

/-- C7 witness: a response with only two items is rejected and the run falls
back. -/
theorem main_falls_back_on_bad_items_witness :
    acceptB (.jobj [("items".toList, .jarr [.jobj [], .jobj []])]) = false ∧
    (mainPayload ⟨0, [], []⟩ []
        (.returned (.jobj [("items".toList, .jarr [.jobj [], .jobj []])])) =
      fallback_payload ⟨0, [], []⟩
        (pick_three_diverse (collect_candidates (Clock.mk 0 [] []).now [])) ∧
     jget (mainPayload ⟨0, [], []⟩ []
        (.returned (.jobj [("items".toList, .jarr [.jobj [], .jobj []])])))
        ("version".toList) = some (.jstr ("B1-RSS-Fallback-1.0".toList))) :=
  ⟨rfl, main_falls_back_on_bad_items ⟨0, [], []⟩ []
    (.jobj [("items".toList, .jarr [.jobj [], .jobj []])]) rfl⟩

/-! ### Selection invariants -/

theorem phase1Step_inv (cands : List Candidate)
    (st : List Candidate × List Str) (b : Str)
    (h : st.2 = st.1.map Candidate.source) :
    (phase1Step cands st b).2 = (phase1Step cands st b).1.map Candidate.source := by
  unfold phase1Step
  cases hf : cands.find?
      (fun it => decide (it.source ∉ st.2) && decide (it.bucket = b)) with
  | none => simpa using h
  | some it => simp [h]

theorem phase1Step_nodup (cands : List Candidate)
    (st : List Candidate × List Str) (b : Str)
    (h : st.2 = st.1.map Candidate.source)
    (hn : (st.1.map Candidate.source).Nodup) :
    ((phase1Step cands st b).1.map Candidate.source).Nodup := by
  unfold phase1Step
  cases hf : cands.find?
      (fun it => decide (it.source ∉ st.2) && decide (it.bucket = b)) with
  | none => simpa using hn
  | some it =>
    have hp := List.find?_some hf
    simp only [Bool.and_eq_true, decide_eq_true_eq] at hp
    have hnot : it.source ∉ st.1.map Candidate.source := h ▸ hp.1
    simp only [List.map_append, List.map_cons, List.map_nil]
    exact hn.append (List.nodup_singleton _)
      (List.disjoint_singleton.mpr hnot)

theorem phase1Step_mem (cands : List Candidate)
    (st : List Candidate × List Str) (b : Str) (x : Candidate)
    (hx : x ∈ (phase1Step cands st b).1) : x ∈ st.1 ∨ x ∈ cands := by
  unfold phase1Step at hx
  cases hf : cands.find?
      (fun it => decide (it.source ∉ st.2) && decide (it.bucket = b)) with
  | none => rw [hf] at hx; exact Or.inl hx
  | some it =>
    rw [hf] at hx
    rcases List.mem_append.mp hx with h1 | h1
    · exact Or.inl h1
    · rcases List.mem_singleton.mp h1 with rfl
      exact Or.inr (List.mem_of_find?_eq_some hf)

theorem phase1Step_len_le (cands : List Candidate)
    (st : List Candidate × List Str) (b : Str) :
    (phase1Step cands st b).1.length ≤ st.1.length + 1 := by
  unfold phase1Step
  cases hf : cands.find?
      (fun it => decide (it.source ∉ st.2) && decide (it.bucket = b)) with
  | none => simp
  | some it => simp

theorem phase2_inv :
    ∀ (l : List Candidate) (p : List Candidate) (u : List Str),
    u = p.map Candidate.source →
    (phase2 l (p, u)).2 = (phase2 l (p, u)).1.map Candidate.source := by
  intro l
  induction l with
  | nil => intro p u h; simpa [phase2] using h
  | cons it rest ih =>
    intro p u h
    simp only [phase2]
    split
    · exact ih p u h
    · split
      · simp [h]
      · exact ih (p ++ [it]) (u ++ [it.source]) (by simp [h])

theorem phase2_nodup :
    ∀ (l : List Candidate) (p : List Candidate) (u : List Str),
    u = p.map Candidate.source → (p.map Candidate.source).Nodup →
    ((phase2 l (p, u)).1.map Candidate.source).Nodup := by
  intro l
  induction l with
  | nil => intro p u _ hn; simpa [phase2] using hn
  | cons it rest ih =>
    intro p u h hn
    simp only [phase2]
    split
    · exact ih p u h hn
    · rename_i hnot
      have hnot' : it.source ∉ p.map Candidate.source := h ▸ hnot
      have hn' : ((p ++ [it]).map Candidate.source).Nodup := by
        simp only [List.map_append, List.map_cons, List.map_nil]
        exact hn.append (List.nodup_singleton _)
          (List.disjoint_singleton.mpr hnot')
      split
      · exact hn'
      · exact ih (p ++ [it]) (u ++ [it.source]) (by simp [h]) hn'

theorem phase2_mem :
    ∀ (l : List Candidate) (p : List Candidate) (u : List Str)
      (x : Candidate), x ∈ (phase2 l (p, u)).1 → x ∈ p ∨ x ∈ l := by
  intro l
  induction l with
  | nil => intro p u x hx; simp [phase2] at hx; exact Or.inl hx
  | cons it rest ih =>
    intro p u x hx
    simp only [phase2] at hx
    split at hx
    · rcases ih p u x hx with h1 | h1
      · exact Or.inl h1
      · exact Or.inr (List.mem_cons_of_mem _ h1)
    · split at hx
      · rcases List.mem_append.mp hx with h1 | h1
        · exact Or.inl h1
        · exact Or.inr (by
            rw [List.mem_singleton.mp h1]; exact List.mem_cons_self it rest)
      · rcases ih (p ++ [it]) (u ++ [it.source]) x hx with h1 | h1
        · rcases List.mem_append.mp h1 with h2 | h2
          · exact Or.inl h2
          · exact Or.inr (List.mem_singleton.mp h2 ▸ List.mem_cons_self it rest)
        · exact Or.inr (List.mem_cons_of_mem _ h1)

theorem phase2_len_le :
    ∀ (l : List Candidate) (p : List Candidate) (u : List Str),
    p.length < 3 → (phase2 l (p, u)).1.length ≤ 3 := by
  intro l
  induction l with
  | nil => intro p u h; simp [phase2]; omega
  | cons it rest ih =>
    intro p u h
    simp only [phase2]
    split
    · exact ih p u h
    · split
      · rename_i hlen; simp only [hlen]; omega
      · rename_i hlen
        have : (p ++ [it]).length < 3 := by
          simp only [List.length_append, List.length_cons, List.length_nil] at *
          omega
        exact ih (p ++ [it]) (u ++ [it.source]) this

theorem phase2_used_mono :
    ∀ (l : List Candidate) (p : List Candidate) (u : List Str) (s : Str),
    s ∈ u → s ∈ (phase2 l (p, u)).2 := by
  intro l
  induction l with
  | nil => intro p u s hs; simpa [phase2] using hs
  | cons it rest ih =>
    intro p u s hs
    simp only [phase2]
    split
    · exact ih p u s hs
    · split
      · exact List.mem_append_left _ hs
      · exact ih (p ++ [it]) (u ++ [it.source]) s (List.mem_append_left _ hs)

theorem phase2_cover :
    ∀ (l : List Candidate) (p : List Candidate) (u : List Str),
    (phase2 l (p, u)).1.length = 3 ∨
      ∀ it ∈ l, it.source ∈ (phase2 l (p, u)).2 := by
  intro l
  induction l with
  | nil => intro p u; exact Or.inr (by simp)
  | cons it rest ih =>
    intro p u
    simp only [phase2]
    split
    · rename_i hin
      rcases ih p u with h1 | h1
      · exact Or.inl h1
      · refine Or.inr fun x hx => ?_
        rcases List.mem_cons.mp hx with rfl | hx'
        · exact phase2_used_mono rest p u x.source hin
        · exact h1 x hx'
    · rename_i hnotin
      split
      · rename_i hlen
        exact Or.inl (by simpa using hlen)
      · rcases ih (p ++ [it]) (u ++ [it.source]) with h1 | h1
        · exact Or.inl h1
        · refine Or.inr fun x hx => ?_
          rcases List.mem_cons.mp hx with rfl | hx'
          · exact phase2_used_mono rest (p ++ [x]) (u ++ [x.source]) x.source
              (List.mem_append_right _ (List.mem_singleton_self _))
          · exact h1 x hx'

theorem phase1_fold_facts (cands : List Candidate) :
    ∀ (bs : List String) (st : List Candidate × List Str),
    st.2 = st.1.map Candidate.source → (st.1.map Candidate.source).Nodup →
    (∀ x ∈ st.1, x ∈ cands) →
    ((bs.foldl (fun st b => phase1Step cands st b.toList) st).2 =
      (bs.foldl (fun st b => phase1Step cands st b.toList) st).1.map
        Candidate.source ∧
     ((bs.foldl (fun st b => phase1Step cands st b.toList) st).1.map
        Candidate.source).Nodup ∧
     (∀ x ∈ (bs.foldl (fun st b => phase1Step cands st b.toList) st).1,
        x ∈ cands) ∧
     (bs.foldl (fun st b => phase1Step cands st b.toList) st).1.length ≤
       st.1.length + bs.length) := by
  intro bs
  induction bs with
  | nil => intro st h1 h2 h3; exact ⟨h1, h2, h3, by simp⟩
  | cons b rest ih =>
    intro st h1 h2 h3
    simp only [List.foldl]
    have h1' := phase1Step_inv cands st b.toList h1
    have h2' := phase1Step_nodup cands st b.toList h1 h2
    have h3' : ∀ x ∈ (phase1Step cands st b.toList).1, x ∈ cands := fun x hx =>
      (phase1Step_mem cands st b.toList x hx).elim (h3 x) id
    obtain ⟨a1, a2, a3, a4⟩ := ih (phase1Step cands st b.toList) h1' h2' h3'
    refine ⟨a1, a2, a3, ?_⟩
    have hl := phase1Step_len_le cands st b.toList
    simp only [List.length_cons]
    omega

/-- The shared characterization of `pick_three_diverse`: its sources are
pairwise distinct and its length is `min 3 (distinct sources among cands)`. -/
theorem pick_three_diverse_spec (cands : List Candidate) :
    ((pick_three_diverse cands).map Candidate.source).Nodup ∧
    (pick_three_diverse cands).length = min 3 (distinctSources cands) := by
  unfold pick_three_diverse
  obtain ⟨i1, n1, m1, l1⟩ := phase1_fold_facts cands
    ["market", "policy", "tech"] ([], []) rfl (by simp) (by simp)
  set st1 := (["market", "policy", "tech"] : List String).foldl
    (fun st b => phase1Step cands st b.toList) ([], []) with hst1
  simp only [List.length_nil, List.length_cons] at l1
  set st2 := if st1.1.length < 3 then phase2 cands st1 else st1 with hst2
  have hfacts : st2.2 = st2.1.map Candidate.source ∧
      (st2.1.map Candidate.source).Nodup ∧ (∀ x ∈ st2.1, x ∈ cands) ∧
      st2.1.length ≤ 3 ∧
      (st2.1.length = 3 ∨ ∀ it ∈ cands, it.source ∈ st2.2) := by
    rw [hst2]
    by_cases hlt : st1.1.length < 3
    · simp only [if_pos hlt]
      refine ⟨phase2_inv cands st1.1 st1.2 i1,
        phase2_nodup cands st1.1 st1.2 i1 n1,
        fun x hx => ?_,
        phase2_len_le cands st1.1 st1.2 hlt,
        phase2_cover cands st1.1 st1.2⟩
      exact (phase2_mem cands st1.1 st1.2 x hx).elim (m1 x) id
    · simp only [if_neg hlt]
      exact ⟨i1, n1, m1, by omega, Or.inl (by omega)⟩
  obtain ⟨A, B, C, D, E⟩ := hfacts
  have htake : st2.1.take 3 = st2.1 := List.take_of_length_le D
  rw [htake]
  have hle : st2.1.length ≤ distinctSources cands := by
    have hsub : ∀ s ∈ st2.1.map Candidate.source,
        s ∈ cands.map Candidate.source := by
      intro s hs
      rcases List.mem_map.mp hs with ⟨x, hx, rfl⟩
      exact List.mem_map_of_mem _ (C x hx)
    calc st2.1.length = (st2.1.map Candidate.source).length :=
          (List.length_map _ _).symm
      _ = (st2.1.map Candidate.source).toFinset.card :=
          (List.toFinset_card_of_nodup B).symm
      _ ≤ (cands.map Candidate.source).toFinset.card :=
          Finset.card_le_card fun s hs =>
            List.mem_toFinset.mpr (hsub s (List.mem_toFinset.mp hs))
      _ = distinctSources cands := List.card_toFinset _
  refine ⟨B, ?_⟩
  rcases E with h3 | hcov
  · rw [h3]; omega
  · have hge : distinctSources cands ≤ st2.1.length := by
      have hsub2 : ∀ s ∈ cands.map Candidate.source,
          s ∈ st2.1.map Candidate.source := by
        intro s hs
        rcases List.mem_map.mp hs with ⟨x, hx, rfl⟩
        have hx2 := hcov x hx
        rwa [A] at hx2
      calc distinctSources cands = (cands.map Candidate.source).toFinset.card :=
            (List.card_toFinset _).symm
        _ ≤ (st2.1.map Candidate.source).toFinset.card :=
            Finset.card_le_card fun s hs =>
              List.mem_toFinset.mpr (hsub2 s (List.mem_toFinset.mp hs))
        _ ≤ (st2.1.map Candidate.source).length := List.toFinset_card_le _
        _ = st2.1.length := List.length_map _ _
    omega

/-- C2: for every candidate list, no two members of the Selection returned
by `pick_three_diverse` share a `source`: the source values of the result
are pairwise distinct. -/
theorem pick_three_diverse_sources_nodup (cands : List Candidate) :
    ((pick_three_diverse cands).map Candidate.source).Nodup :=
  (pick_three_diverse_spec cands).1

/-- C3: for every candidate list, the Selection's length equals
`min 3 (number of distinct source values among the candidates)`. -/
theorem pick_three_diverse_length (cands : List Candidate) :
    (pick_three_diverse cands).length = min 3 (distinctSources cands) :=
  (pick_three_diverse_spec cands).2

/-! ### Collector invariants -/

theorem feedStep_inv (now : Int) (name : Str) :
    ∀ (es : List Entry) (items : List Candidate) (seen : List Str),
    (∀ c ∈ items, c.original_url ∈ seen) →
    (items.map Candidate.original_url).Nodup →
    ((∀ c ∈ (feedStep now name es (items, seen)).1,
        c.original_url ∈ (feedStep now name es (items, seen)).2) ∧
     ((feedStep now name es (items, seen)).1.map
        Candidate.original_url).Nodup) := by
  intro es
  induction es with
  | nil => intro items seen h1 h2; exact ⟨h1, h2⟩
  | cons e rest ih =>
    intro items seen h1 h2
    rw [feedStep]
    by_cases hskip : e.link = [] ∨ e.title = []
    · rw [if_pos hskip]; exact ih items seen h1 h2
    · rw [if_neg hskip]
      split
      · exact ⟨h1, h2⟩
      · rename_i nurl heq
        by_cases hseen : nurl ∈ seen
        · rw [if_pos hseen]; exact ih items seen h1 h2
        · rw [if_neg hseen]
          dsimp only
          generalize strip_html (if e.summary ≠ [] then e.summary
            else e.description) = sm
          split
          · exact ih items seen h1 h2
          · apply ih
            · intro c hc
              rcases List.mem_append.mp hc with hc1 | hc1
              · exact List.mem_cons_of_mem _ (h1 c hc1)
              · rw [List.mem_singleton.mp hc1]
                exact List.mem_cons_self _ _
            · simp only [List.map_append, List.map_cons, List.map_nil]
              refine h2.append (List.nodup_singleton _)
                (List.disjoint_singleton.mpr fun hmem => ?_)
              rcases List.mem_map.mp hmem with ⟨c, hc, hcu⟩
              exact hseen (hcu ▸ h1 c hc)

theorem collect_fold_inv (now : Int) :
    ∀ (feeds : List (Str × Option (List Entry)))
      (st : List Candidate × List Str),
    (∀ c ∈ st.1, c.original_url ∈ st.2) →
    (st.1.map Candidate.original_url).Nodup →
    (((feeds.foldl (fun st f =>
        match f.2 with
        | none => st
        | some entries => feedStep now f.1 (entries.take 12) st) st).1.map
        Candidate.original_url).Nodup) := by
  intro feeds
  induction feeds with
  | nil => intro st _ h2; exact h2
  | cons f rest ih =>
    intro st h1 h2
    simp only [List.foldl]
    cases hf : f.2 with
    | none => exact ih st h1 h2
    | some entries =>
      obtain ⟨g1, g2⟩ := feedStep_inv now f.1 (entries.take 12) st.1 st.2 h1 h2
      exact ih _ g1 g2

/-- C5: in any run, the candidate list has pairwise-distinct normalized URLs
(first-seen wins across all feeds) and at most 80 entries. -/
theorem collect_candidates_nodup_capped (now : Int)
    (feeds : List (Str × Option (List Entry))) :
    ((collect_candidates now feeds).map Candidate.original_url).Nodup ∧
    (collect_candidates now feeds).length ≤ 80 := by
  unfold collect_candidates
  set base := feeds.foldl (fun st f =>
    match f.2 with
    | none => st
    | some entries => feedStep now f.1 (entries.take 12) st) ([], [])
    with hbase
  constructor
  · have hn := collect_fold_inv now feeds ([], []) (by simp) (by simp)
    rw [← hbase] at hn
    have hperm := (pySort_perm candLe base.1).map Candidate.original_url
    have hn2 : ((pySort candLe base.1).map Candidate.original_url).Nodup :=
      hperm.symm.nodup hn
    exact List.Nodup.sublist
      ((List.take_sublist 80 (pySort candLe base.1)).map _) hn2
  · rw [List.length_take]; exact Nat.min_le_left _ _

/-! ### Payload lemmas -/

theorem jlook_jsetFields_ne (fields : List (Str × JVal)) (k k' : Str)
    (v : JVal) (h : k ≠ k') :
    jlook (jsetFields fields k v) k' = jlook fields k' := by
  induction fields with
  | nil => simp [jsetFields, jlook, h]
  | cons p t ih =>
    obtain ⟨k0, w⟩ := p
    by_cases hk : k0 = k
    · subst hk
      simp [jsetFields, jlook, h]
    · simp [jsetFields, jlook, hk, ih]

theorem jget_jset_ne (x : JVal) (k k' : Str) (v : JVal) (h : k ≠ k') :
    jget (jset x k v) k' = jget x k' := by
  cases x <;> simp [jset, jget, jlook_jsetFields_ne _ _ _ _ h]

theorem fallback_items_len (clock : Clock) (picked : List Candidate) :
    payloadItemsLen (fallback_payload clock picked) = picked.length :=
  calc payloadItemsLen (fallback_payload clock picked)
      = (picked.map mkFallbackItem).length := rfl
    _ = picked.length := List.length_map _ _

theorem acceptB_items (v : JVal) (h : acceptB v = true) :
    ∃ xs, jget v ("items".toList) = some (.jarr xs) ∧ xs.length = 3 := by
  unfold acceptB at h
  simp only [Bool.and_eq_true] at h
  obtain ⟨-, hm⟩ := h
  cases hj : jget v ("items".toList) with
  | none => rw [hj] at hm; exact absurd hm (by simp)
  | some w =>
    rw [hj] at hm
    cases w with
    | jarr xs => exact ⟨xs, rfl, by simpa using hm⟩
    | jnull => exact absurd hm (by simp)
    | jbool b => exact absurd hm (by simp)
    | jnum n => exact absurd hm (by simp)
    | jstr s => exact absurd hm (by simp)
    | jobj f => exact absurd hm (by simp)

theorem adopt_ok_items (clock : Clock) (v : JVal) (p : JVal) (xs : List JVal)
    (hxs : jget v ("items".toList) = some (.jarr xs))
    (hok : adoptStructured clock v = .ok p) :
    jget p ("items".toList) = some (.jarr xs) := by
  unfold adoptStructured at hok
  rw [hxs] at hok
  dsimp only at hok
  cases hs : llmSources xs with
  | error e => rw [hs] at hok; exact absurd hok (by simp [Bind.bind, Except.bind])
  | ok s =>
    rw [hs] at hok
    simp only [Bind.bind, Except.bind, Except.ok.injEq] at hok
    subst hok
    rw [jget_jset_ne _ _ _ _ (by decide), jget_jset_ne _ _ _ _ (by decide),
      jget_jset_ne _ _ _ _ (by decide)]
    exact hxs

/-- C6 counterexample: a run whose feeds yield a single candidate (one feed,
one relevant entry, no analysis credential) writes a Digest Payload whose
`items` has length 1, not 3. -/
theorem payload_items_counterexample :
    payloadItemsLen (mainPayload ⟨0, [], []⟩
      [("A".toList, some [⟨"https://a.com/x".toList, "ai news".toList,
        "ai".toList, [], some 0⟩])] .noKey) = 1 ∧
    payloadItemsLen (mainPayload ⟨0, [], []⟩
      [("A".toList, some [⟨"https://a.com/x".toList, "ai news".toList,
        "ai".toList, [], some 0⟩])] .noKey) ≠ 3 := by
  constructor
  · rfl
  · decide

/-- C6 (amended): every Digest Payload written by a run has at most 3 items;
it has exactly 3 whenever the candidates span at least 3 distinct sources
(and, in the adopted-LLM case, always exactly 3); in the fallback case the
item count is the Selection length, `min 3 (distinct sources)`. -/
theorem payload_items_at_most_three (clock : Clock)
    (feeds : List (Str × Option (List Entry))) (outcome : LLMOutcome) :
    payloadItemsLen (mainPayload clock feeds outcome) ≤ 3 ∧
    (3 ≤ distinctSources (collect_candidates clock.now feeds) →
      payloadItemsLen (mainPayload clock feeds outcome) = 3) := by
  have hlen := (pick_three_diverse_spec (collect_candidates clock.now feeds)).2
  have hfb : payloadItemsLen (fallback_payload clock
      (pick_three_diverse (collect_candidates clock.now feeds))) ≤ 3 ∧
      (3 ≤ distinctSources (collect_candidates clock.now feeds) →
        payloadItemsLen (fallback_payload clock
          (pick_three_diverse (collect_candidates clock.now feeds))) = 3) := by
    rw [fallback_items_len, hlen]
    omega
  cases outcome with
  | noKey => simpa [mainPayload] using hfb
  | raised => simpa [mainPayload] using hfb
  | returned v =>
    by_cases hacc : acceptB v = true
    · cases hadopt : adoptStructured clock v with
      | error e => simpa [mainPayload, hacc, hadopt] using hfb
      | ok p =>
        obtain ⟨xs, hxs, hxs3⟩ := acceptB_items v hacc
        have hp : payloadItemsLen p = 3 := by
          unfold payloadItemsLen
          rw [adopt_ok_items clock v p xs hxs hadopt]
          exact hxs3
        have hm : mainPayload clock feeds (.returned v) = p := by
          simp [mainPayload, hacc, hadopt]
        rw [hm, hp]
        exact ⟨by omega, fun _ => rfl⟩
    · rw [Bool.not_eq_true] at hacc
      simpa [mainPayload, hacc] using hfb

/-- C6 witness: with three feeds from three distinct sources the payload has
exactly 3 items. -/
theorem payload_items_at_most_three_witness :
    payloadItemsLen (mainPayload ⟨0, [], []⟩
      [("A".toList, some [⟨"https://a.com/1".toList, "ai one".toList,
        "ai".toList, [], some 0⟩]),
       ("B".toList, some [⟨"https://b.com/2".toList, "ai two".toList,
        "ai".toList, [], some 0⟩]),
       ("C".toList, some [⟨"https://c.com/3".toList, "ai three".toList,
        "ai".toList, [], some 0⟩])] .noKey) ≤ 3 ∧
    payloadItemsLen (mainPayload ⟨0, [], []⟩
      [("A".toList, some [⟨"https://a.com/1".toList, "ai one".toList,
        "ai".toList, [], some 0⟩]),
       ("B".toList, some [⟨"https://b.com/2".toList, "ai two".toList,
        "ai".toList, [], some 0⟩]),
       ("C".toList, some [⟨"https://c.com/3".toList, "ai three".toList,
        "ai".toList, [], some 0⟩])] .noKey) = 3 :=
  ⟨(payload_items_at_most_three ⟨0, [], []⟩ _ .noKey).1,
   (payload_items_at_most_three ⟨0, [], []⟩ _ .noKey).2 (by decide)⟩

/-! ### String order and sortedness -/

theorem strLe_total : ∀ a b : Str, strLe a b = true ∨ strLe b a = true := by
  intro a
  induction a with
  | nil => intro b; exact Or.inl rfl
  | cons x xs ih =>
    intro b
    cases b with
    | nil => exact Or.inr rfl
    | cons y ys =>
      by_cases h1 : x < y
      · exact Or.inl (by simp [strLe, h1])
      · by_cases h2 : y < x
        · exact Or.inr (by simp [strLe, h2, asymm h2])
        · rcases ih ys with h | h
          · exact Or.inl (by simp [strLe, h1, h2, h])
          · exact Or.inr (by simp [strLe, h1, h2, h])

theorem strLe_trans :
    ∀ a b c : Str, strLe a b = true → strLe b c = true → strLe a c = true := by
  intro a
  induction a with
  | nil => intro b c _ _; rfl
  | cons x xs ih =>
    intro b c hab hbc
    cases b with
    | nil => exact absurd hab (by simp [strLe])
    | cons y ys =>
      cases c with
      | nil => exact absurd hbc (by simp [strLe])
      | cons z zs =>
        simp only [strLe] at hab hbc ⊢
        by_cases h1 : x < y
        · by_cases h2 : y < z
          · simp [lt_trans h1 h2]
          · by_cases h3 : z < y
            · exact absurd hbc (by simp [h2, h3])
            · have hyz : y = z := le_antisymm (not_lt.mp h3) (not_lt.mp h2)
              subst hyz
              simp [h1]
        · by_cases h1' : y < x
          · exact absurd hab (by simp [h1, h1'])
          · have hxy : x = y := le_antisymm (not_lt.mp h1') (not_lt.mp h1)
            subst hxy
            rw [if_neg h1, if_neg h1] at hab
            by_cases h2 : x < z
            · simp [h2]
            · by_cases h3 : z < x
              · exact absurd hbc (by simp [h2, h3])
              · rw [if_neg h2, if_neg h3] at hbc ⊢
                exact ih ys zs hab hbc

theorem mem_pyInsert (le : α → α → Bool) (x y : α) (l : List α) :
    y ∈ pyInsert le x l ↔ y = x ∨ y ∈ l := by
  rw [(pyInsert_perm le x l).mem_iff, List.mem_cons]

theorem pyInsert_pairwise (le : α → α → Bool)
    (htot : ∀ a b, le a b = true ∨ le b a = true)
    (htrans : ∀ a b c, le a b = true → le b c = true → le a c = true)
    (x : α) :
    ∀ (l : List α), l.Pairwise (fun a b => le a b = true) →
    (pyInsert le x l).Pairwise (fun a b => le a b = true) := by
  intro l
  induction l with
  | nil => intro _; simp [pyInsert]
  | cons y t ih =>
    intro hp
    rw [List.pairwise_cons] at hp
    obtain ⟨hy, ht⟩ := hp
    simp only [pyInsert]
    split
    · rename_i hxy
      rw [List.pairwise_cons]
      refine ⟨fun z hz => ?_, List.pairwise_cons.mpr ⟨hy, ht⟩⟩
      rcases List.mem_cons.mp hz with rfl | hz'
      · exact hxy
      · exact htrans x y z hxy (hy z hz')
    · rename_i hxy
      rw [List.pairwise_cons]
      refine ⟨fun z hz => ?_, ih ht⟩
      rcases (mem_pyInsert le x z t).mp hz with rfl | hz'
      · rcases htot z y with h | h
        · exact absurd h hxy
        · exact h
      · exact hy z hz'

theorem pySort_pairwise (le : α → α → Bool)
    (htot : ∀ a b, le a b = true ∨ le b a = true)
    (htrans : ∀ a b c, le a b = true → le b c = true → le a c = true)
    (l : List α) :
    (pySort le l).Pairwise (fun a b => le a b = true) := by
  induction l with
  | nil => simp [pySort]
  | cons x t ih => exact pyInsert_pairwise le htot htrans x (pySort le t) ih

/-! ### The LLM-sources computation on well-formed items -/

theorem mapM_jgetE_of_obj :
    ∀ (xs : List JVal), (∀ it ∈ xs, isObj it = true) →
    xs.mapM (fun it => jgetE it ("source".toList)) =
      .ok (xs.map fun it => (jget it ("source".toList)).getD .jnull) := by
  intro xs
  induction xs with
  | nil => intro _; rfl
  | cons x t ih =>
    intro h
    have hx := h x (List.mem_cons_self _ _)
    have hrec := ih fun it hit => h it (List.mem_cons_of_mem _ hit)
    cases x with
    | jobj fields =>
      simp only [List.mapM_cons, hrec]
      rfl
    | jnull => exact absurd hx (by simp [isObj])
    | jbool b => exact absurd hx (by simp [isObj])
    | jnum n => exact absurd hx (by simp [isObj])
    | jstr s => exact absurd hx (by simp [isObj])
    | jarr l => exact absurd hx (by simp [isObj])

theorem filter_truthy_strs :
    ∀ (raw : List JVal), (∀ x ∈ raw, (∃ t, x = .jstr t) ∨ x = .jnull) →
    ∃ m : List Str, raw.filter truthy = m.map JVal.jstr := by
  intro raw
  induction raw with
  | nil => exact fun _ => ⟨[], rfl⟩
  | cons x rest ih =>
    intro h
    obtain ⟨m, hm⟩ := ih fun y hy => h y (List.mem_cons_of_mem _ hy)
    rcases h x (List.mem_cons_self _ _) with ⟨t, rfl⟩ | rfl
    · by_cases ht : t = []
      · subst ht
        exact ⟨m, by simpa [List.filter_cons, truthy] using hm⟩
      · exact ⟨t :: m, by simp [List.filter_cons, truthy, ht, hm]⟩
    · exact ⟨m, by simpa [List.filter_cons, truthy] using hm⟩

theorem jvalMem_jstr (t : Str) :
    ∀ (l : List Str), jvalMem (.jstr t) (l.map JVal.jstr) = true ↔ t ∈ l := by
  intro l
  induction l with
  | nil => simp [jvalMem]
  | cons y ys ih =>
    simp only [List.map_cons, jvalMem, jeq, Bool.or_eq_true, ih,
      List.mem_cons]
    constructor
    · rintro (h | h)
      · exact Or.inl (by simpa using h)
      · exact Or.inr h
    · rintro (rfl | h)
      · exact Or.inl (by simp)
      · exact Or.inr h

theorem jdedup_map_jstr :
    ∀ (m : List Str), jdedup (m.map JVal.jstr) = m.dedup.map JVal.jstr := by
  intro m
  induction m with
  | nil => rfl
  | cons x ys ih =>
    simp only [List.map_cons, jdedup, ih]
    by_cases hx : x ∈ ys.dedup
    · rw [if_pos (by rw [jvalMem_jstr]; exact hx)]
      rw [List.dedup_cons_of_mem (List.mem_dedup.mp hx)]
    · rw [if_neg (by rw [jvalMem_jstr]; exact hx)]
      rw [List.dedup_cons_of_not_mem fun hmem => hx (List.mem_dedup.mpr hmem)]
      rfl

theorem pyInsert_map_jstr (x : Str) :
    ∀ (m : List Str),
    pyInsert (fun a b => (jle a b).getD true) (.jstr x) (m.map JVal.jstr) =
      (pyInsert strLe x m).map JVal.jstr := by
  intro m
  induction m with
  | nil => rfl
  | cons y ys ih =>
    simp only [List.map_cons, pyInsert]
    by_cases h : strLe x y = true
    · rw [if_pos (show ((jle (JVal.jstr x) (JVal.jstr y)).getD true) = true
        from h), if_pos h]
      rfl
    · rw [if_neg (show ¬ ((jle (JVal.jstr x) (JVal.jstr y)).getD true) = true
        from h), if_neg h, ih]
      rfl

theorem pySort_map_jstr :
    ∀ (m : List Str),
    pySort (fun a b => (jle a b).getD true) (m.map JVal.jstr) =
      (pySort strLe m).map JVal.jstr := by
  intro m
  induction m with
  | nil => rfl
  | cons x ys ih =>
    simp only [List.map_cons, pySort, ih]
    exact pyInsert_map_jstr x (pySort strLe ys)

theorem allComparable_jstr :
    ∀ (m : List Str), allComparable (m.map JVal.jstr) = true := by
  intro m
  induction m with
  | nil => rfl
  | cons x ys ih =>
    simp only [List.map_cons, allComparable, Bool.and_eq_true, ih,
      and_true, List.all_eq_true]
    intro y hy
    rcases List.mem_map.mp hy with ⟨t, _, rfl⟩
    rfl

theorem llmSources_of_str_sources (xs : List JVal)
    (hit : ∀ it ∈ xs, isObj it = true)
    (hsrc : ∀ it ∈ xs, ∀ x, jget it ("source".toList) = some x →
      (∃ t, x = .jstr t) ∨ x = .jnull) :
    ∃ m : List Str,
      ((xs.map fun it => (jget it ("source".toList)).getD .jnull).filter
        truthy = m.map JVal.jstr) ∧
      llmSources xs = .ok ((pySort strLe m.dedup).map JVal.jstr) := by
  have hraw : ∀ x ∈ (xs.map fun it => (jget it ("source".toList)).getD .jnull),
      (∃ t, x = .jstr t) ∨ x = .jnull := by
    intro x hx
    rcases List.mem_map.mp hx with ⟨it, hitm, rfl⟩
    cases hj : jget it ("source".toList) with
    | none => exact Or.inr rfl
    | some w => exact hsrc it hitm w hj
  obtain ⟨m, hm⟩ := filter_truthy_strs _ hraw
  refine ⟨m, hm, ?_⟩
  unfold llmSources
  rw [mapM_jgetE_of_obj xs hit]
  simp only [Bind.bind, Except.bind]
  rw [hm, jdedup_map_jstr]
  unfold pySortedJ
  rw [if_pos (allComparable_jstr m.dedup), pySort_map_jstr]

/-- C10 counterexample: the claim says a parsed dict whose `items` is a list
of exactly 3 elements is always adopted verbatim (with `version` stamped to
the OpenAI tag); but when the items are not dicts, `it.get("source")` raises
inside the `try` and the run silently falls back, so the written payload
carries the fallback tag instead. -/
theorem llm_acceptance_counterexample :
    acceptB (.jobj [("items".toList, .jarr [.jnum 1, .jnum 2, .jnum 3])]) =
      true ∧
    jget (mainPayload ⟨0, [], []⟩ []
      (.returned (.jobj [("items".toList,
        .jarr [.jnum 1, .jnum 2, .jnum 3])])))
      ("version".toList) = some (.jstr ("B1-RSS-Fallback-1.0".toList)) :=
  ⟨rfl, rfl⟩

/-- C10 (amended): adoption of the LLM response requires the parsed value to
be a (truthy) dict whose `items` holds exactly 3 entries, *and* the
post-processing to go through: every item must be a dict and the truthy
`source` values mutually comparable (e.g. strings).  Under those conditions
the response is adopted verbatim, overwriting only `generated_at`, `version`
and `sources`, with no validation of any other per-item field; `sources` is
recomputed as the sorted distinct truthy source values, items without one
silently omitted. -/
theorem llm_acceptance_amended (clock : Clock)
    (feeds : List (Str × Option (List Entry))) (v : JVal) (xs : List JVal)
    (hobj : isObj v = true) (htr : truthy v = true)
    (hxs : jget v ("items".toList) = some (.jarr xs))
    (hlen : xs.length = 3)
    (hit : ∀ it ∈ xs, isObj it = true)
    (hsrc : ∀ it ∈ xs, ∀ x, jget it ("source".toList) = some x →
      (∃ t, x = .jstr t) ∨ x = .jnull) :
    ∃ s : List Str,
      mainPayload clock feeds (.returned v) =
        jset (jset (jset v ("generated_at".toList) (.jstr clock.genIso))
          ("version".toList) (.jstr ("B1-RSS-OpenAI-1.0".toList)))
          ("sources".toList) (.jarr (s.map JVal.jstr)) ∧
      (∀ t : Str, t ∈ s ↔ (t ≠ [] ∧ ∃ it ∈ xs,
        jget it ("source".toList) = some (.jstr t))) ∧
      s.Nodup ∧ s.Pairwise (fun a b => strLe a b = true) := by
  have hacc : acceptB v = true := by
    unfold acceptB
    rw [hxs]
    simp [htr, hobj, hlen]
  obtain ⟨m, hfil, hll⟩ := llmSources_of_str_sources xs hit hsrc
  have hadopt : adoptStructured clock v =
      .ok (jset (jset (jset v ("generated_at".toList) (.jstr clock.genIso))
        ("version".toList) (.jstr ("B1-RSS-OpenAI-1.0".toList)))
        ("sources".toList)
        (.jarr ((pySort strLe m.dedup).map JVal.jstr))) := by
    unfold adoptStructured
    rw [hxs]
    dsimp only
    rw [hll]
    rfl
  refine ⟨pySort strLe m.dedup, ?_, ?_, ?_, ?_⟩
  · simp [mainPayload, hacc, hadopt]
  · intro t
    constructor
    · intro ht
      have h2 : t ∈ m := List.mem_dedup.mp ((mem_pySort _ _ t).mp ht)
      have h3 : JVal.jstr t ∈ m.map JVal.jstr := List.mem_map_of_mem _ h2
      rw [← hfil] at h3
      obtain ⟨h5, h6⟩ := List.mem_filter.mp h3
      have htne : t ≠ [] := by simpa [truthy] using h6
      rcases List.mem_map.mp h5 with ⟨it, hitm, heq⟩
      refine ⟨htne, it, hitm, ?_⟩
      cases hj : jget it ("source".toList) with
      | none => rw [hj] at heq; exact absurd heq (by simp)
      | some w =>
        rw [hj] at heq
        simp only [Option.getD_some] at heq
        rw [heq]
    · rintro ⟨htne, it, hitm, hj⟩
      have h5 : JVal.jstr t ∈
          (xs.map fun it => (jget it ("source".toList)).getD .jnull) :=
        List.mem_map.mpr ⟨it, hitm, by rw [hj]; rfl⟩
      have h6 : JVal.jstr t ∈
          (xs.map fun it => (jget it ("source".toList)).getD .jnull).filter
            truthy :=
        List.mem_filter.mpr ⟨h5, by simpa [truthy] using htne⟩
      rw [hfil] at h6
      rcases List.mem_map.mp h6 with ⟨t', ht', heq⟩
      have heq' : t' = t := by
        injection heq
      subst heq'
      exact (mem_pySort _ _ t').mpr (List.mem_dedup.mpr ht')
  · exact (pySort_perm strLe m.dedup).symm.nodup (List.nodup_dedup m)
  · exact pySort_pairwise strLe strLe_total strLe_trans m.dedup

/-- C10 witness: a concrete accepted response (three dict items, sources
`"b"`, `"a"` and absent) is adopted with `sources` sorted to `["a", "b"]`. -/
theorem llm_acceptance_amended_witness :
    jget (JVal.jobj [("items".toList, JVal.jarr
        [JVal.jobj [("source".toList, JVal.jstr ("b".toList))],
         JVal.jobj [("source".toList, JVal.jstr ("a".toList))],
         JVal.jobj []])]) ("items".toList) =
      some (.jarr
        [JVal.jobj [("source".toList, JVal.jstr ("b".toList))],
         JVal.jobj [("source".toList, JVal.jstr ("a".toList))],
         JVal.jobj []]) ∧
    ∃ s : List Str,
      mainPayload ⟨0, [], []⟩ []
        (.returned (JVal.jobj [("items".toList, JVal.jarr
          [JVal.jobj [("source".toList, JVal.jstr ("b".toList))],
           JVal.jobj [("source".toList, JVal.jstr ("a".toList))],
           JVal.jobj []])])) =
        jset (jset (jset (JVal.jobj [("items".toList, JVal.jarr
            [JVal.jobj [("source".toList, JVal.jstr ("b".toList))],
             JVal.jobj [("source".toList, JVal.jstr ("a".toList))],
             JVal.jobj []])]) ("generated_at".toList) (.jstr []))
          ("version".toList) (.jstr ("B1-RSS-OpenAI-1.0".toList)))
          ("sources".toList) (.jarr (s.map JVal.jstr)) ∧
      (∀ t : Str, t ∈ s ↔ (t ≠ [] ∧ ∃ it ∈
        [JVal.jobj [("source".toList, JVal.jstr ("b".toList))],
         JVal.jobj [("source".toList, JVal.jstr ("a".toList))],
         JVal.jobj []],
        jget it ("source".toList) = some (.jstr t))) ∧
      s.Nodup ∧ s.Pairwise (fun a b => strLe a b = true) :=
  ⟨rfl,
   llm_acceptance_amended ⟨0, [], []⟩ []
    (JVal.jobj [("items".toList, JVal.jarr
      [JVal.jobj [("source".toList, JVal.jstr ("b".toList))],
       JVal.jobj [("source".toList, JVal.jstr ("a".toList))],
       JVal.jobj []])])
    [JVal.jobj [("source".toList, JVal.jstr ("b".toList))],
     JVal.jobj [("source".toList, JVal.jstr ("a".toList))],
     JVal.jobj []]
    rfl rfl rfl rfl (by decide)
    (by
      intro it hit x hx
      rcases List.mem_cons.mp hit with rfl | hit
      · have h2 : some (JVal.jstr ("b".toList)) = some x := hx
        exact Or.inl ⟨"b".toList, (Option.some.inj h2).symm⟩
      rcases List.mem_cons.mp hit with rfl | hit
      · have h2 : some (JVal.jstr ("a".toList)) = some x := hx
        exact Or.inl ⟨"a".toList, (Option.some.inj h2).symm⟩
      rcases List.mem_cons.mp hit with rfl | hit
      · have h2 : (none : Option JVal) = some x := hx
        exact absurd h2 (by simp)
      · exact absurd hit (by simp))⟩

/-! ### Character facts for the URL normalizer -/

theorem toNat_ofNat_lt (n : Nat) (h : n < 55296) :
    (Char.ofNat n).toNat = n := by
  unfold Char.ofNat
  rw [dif_pos (Or.inl (by exact_mod_cast h))]
  rfl

theorem char_toNat_inj (a b : Char) (h : a.toNat = b.toNat) : a = b := by
  apply Char.ext
  exact UInt32.toNat.inj h

theorem toLower_eq_self_or_range (c : Char) :
    Char.toLower c = c ∨
    (97 ≤ (Char.toLower c).toNat ∧ (Char.toLower c).toNat ≤ 122) := by
  unfold Char.toLower
  by_cases h : c.toNat ≥ 65 ∧ c.toNat ≤ 90
  · rw [if_pos h]
    right
    rw [toNat_ofNat_lt _ (by omega)]
    omega
  · rw [if_neg h]
    exact Or.inl rfl

theorem toLower_ne_of_not_lower (c d : Char)
    (hd : ¬(97 ≤ d.toNat ∧ d.toNat ≤ 122)) (hc : c ≠ d) :
    Char.toLower c ≠ d := by
  rcases toLower_eq_self_or_range c with h | h
  · rw [h]; exact hc
  · intro he; rw [he] at h; exact hd h

theorem toLower_eq_of_not_lower (c d : Char)
    (hd : ¬(97 ≤ d.toNat ∧ d.toNat ≤ 122)) (h : Char.toLower c = d) :
    c = d := by
  rcases toLower_eq_self_or_range c with h' | h'
  · rw [← h', h]
  · rw [h] at h'; exact absurd h' hd

theorem toLower_eq_self_of_not_upper (c : Char)
    (h : ¬(65 ≤ c.toNat ∧ c.toNat ≤ 90)) : Char.toLower c = c := by
  unfold Char.toLower
  rw [if_neg h]

theorem toLower_toLower (c : Char) :
    Char.toLower (Char.toLower c) = Char.toLower c := by
  rcases toLower_eq_self_or_range c with h | h
  · rw [h]
    exact h
  · exact toLower_eq_self_of_not_upper _ (by omega)

theorem lowerStr_idem (s : Str) : lowerStr (lowerStr s) = lowerStr s := by
  unfold lowerStr
  rw [List.map_map]
  exact List.map_congr_left fun c _ => toLower_toLower c

theorem pyIsSpace_toLower (c : Char) (h : pyIsSpace c = false) :
    pyIsSpace (Char.toLower c) = false := by
  rcases toLower_eq_self_or_range c with h' | h'
  · rw [h']; exact h
  · unfold pyIsSpace
    simp only [Bool.or_eq_false_iff, Bool.and_eq_false_iff,
      decide_eq_false_iff_not]
    omega

/-! ### Structure of `splitAtCh`, `splitSep`, `joinSep` -/

theorem splitAtCh_none (ch : Char) :
    ∀ (s : Str), ch ∉ s → splitAtCh ch s = none := by
  intro s
  induction s with
  | nil => intro _; rfl
  | cons c cs ih =>
    intro h
    have h1 : c ≠ ch := fun he => h (he ▸ List.mem_cons_self _ _)
    have h2 : ch ∉ cs := fun hm => h (List.mem_cons_of_mem _ hm)
    simp only [splitAtCh, if_neg h1, ih h2]

theorem splitAtCh_some_structure (ch : Char) :
    ∀ (s : Str) (a b : Str), splitAtCh ch s = some (a, b) →
    s = a ++ ch :: b ∧ ch ∉ a := by
  intro s
  induction s with
  | nil => intro a b h; exact absurd h (by simp [splitAtCh])
  | cons c cs ih =>
    intro a b h
    simp only [splitAtCh] at h
    by_cases hc : c = ch
    · rw [if_pos hc] at h
      obtain ⟨rfl, rfl⟩ := Prod.mk.injEq _ _ _ _ ▸ (Option.some.inj h)
      exact ⟨by rw [hc]; rfl, by simp⟩
    · rw [if_neg hc] at h
      cases hs : splitAtCh ch cs with
      | none => rw [hs] at h; exact absurd h (by simp)
      | some p =>
        rw [hs] at h
        obtain ⟨a', b'⟩ := p
        have h2 := Option.some.inj h
        obtain ⟨ha, hb⟩ := Prod.mk.injEq _ _ _ _ ▸ h2
        obtain ⟨hcs, hna⟩ := ih a' b' hs
        subst ha
        subst hb
        refine ⟨by rw [hcs]; rfl, ?_⟩
        intro hm
        rcases List.mem_cons.mp hm with he | hm'
        · exact hc he.symm
        · exact hna hm'

theorem splitAtCh_append (ch : Char) :
    ∀ (a b : Str), ch ∉ a → splitAtCh ch (a ++ ch :: b) = some (a, b) := by
  intro a
  induction a with
  | nil => intro b _; simp [splitAtCh]
  | cons c cs ih =>
    intro b h
    have h1 : c ≠ ch := fun he => h (he ▸ List.mem_cons_self _ _)
    have h2 : ch ∉ cs := fun hm => h (List.mem_cons_of_mem _ hm)
    simp only [List.cons_append, splitAtCh, if_neg h1, List.append_eq]
    rw [ih b h2]

theorem splitSep_no_sep (sep : Char) :
    ∀ (p : Str), sep ∉ p → splitSep sep p = [p] := by
  intro p
  induction p with
  | nil => intro _; rfl
  | cons c cs ih =>
    intro h
    have h1 : c ≠ sep := fun he => h (he ▸ List.mem_cons_self _ _)
    have h2 : sep ∉ cs := fun hm => h (List.mem_cons_of_mem _ hm)
    simp only [splitSep, if_neg h1, ih h2]

theorem splitSep_append (sep : Char) :
    ∀ (p : Str) (rest : Str), sep ∉ p →
    splitSep sep (p ++ sep :: rest) = p :: splitSep sep rest := by
  intro p
  induction p with
  | nil => intro rest _; simp [splitSep]
  | cons c cs ih =>
    intro rest h
    have h1 : c ≠ sep := fun he => h (he ▸ List.mem_cons_self _ _)
    have h2 : sep ∉ cs := fun hm => h (List.mem_cons_of_mem _ hm)
    simp only [List.cons_append, splitSep, if_neg h1, List.append_eq]
    rw [ih rest h2]

theorem splitSep_joinSep (sep : Char) :
    ∀ (ps : List Str) (p : Str), (∀ x ∈ p :: ps, sep ∉ x) →
    splitSep sep (joinSep sep (p :: ps)) = p :: ps := by
  intro ps
  induction ps with
  | nil =>
    intro p h
    exact splitSep_no_sep sep p (h p (List.mem_cons_self _ _))
  | cons q qs ih =>
    intro p h
    show splitSep sep (p ++ sep :: joinSep sep (q :: qs)) = _
    rw [splitSep_append sep p _ (h p (List.mem_cons_self _ _)),
      ih q fun x hx => h x (List.mem_cons_of_mem _ hx)]

/-! ### UTF-8 round trip -/

theorem char_valid_nat (c : Char) :
    c.toNat < 55296 ∨ (57343 < c.toNat ∧ c.toNat < 1114112) := by
  have h := c.valid
  unfold UInt32.isValidChar at h
  exact h

theorem utf8EncodeCh_lt (c : Char) : ∀ b ∈ utf8EncodeCh c, b < 256 := by
  have hv := char_valid_nat c
  intro b hb
  simp only [utf8EncodeCh] at hb
  split at hb
  · rcases List.mem_singleton.mp hb with rfl
    omega
  · split at hb
    · simp only [List.mem_cons, List.not_mem_nil, or_false] at hb
      rcases hb with rfl | rfl <;> omega
    · split at hb
      · simp only [List.mem_cons, List.not_mem_nil, or_false] at hb
        rcases hb with rfl | rfl | rfl <;> omega
      · simp only [List.mem_cons, List.not_mem_nil, or_false] at hb
        rcases hb with rfl | rfl | rfl | rfl <;> omega

theorem udec_one (b : Nat) (h : b < 128) (bs : List Nat) :
    utf8DecodeRep (b :: bs) = Char.ofNat b :: utf8DecodeRep bs := by
  cases bs with
  | nil =>
    conv_lhs => rw [utf8DecodeRep.eq_def]
    dsimp only
    rw [if_pos h]
    conv_rhs => rw [utf8DecodeRep.eq_def]
  | cons b2 rest =>
    conv_lhs => rw [utf8DecodeRep.eq_def]
    dsimp only
    rw [if_pos h]

theorem udec_two (b b2 : Nat) (bs : List Nat) (hb : 194 ≤ b ∧ b ≤ 223)
    (h2 : contByte b2 = true) :
    utf8DecodeRep (b :: b2 :: bs) =
      Char.ofNat ((b - 192) * 64 + (b2 - 128)) :: utf8DecodeRep bs := by
  conv_lhs => rw [utf8DecodeRep.eq_def]
  dsimp only
  rw [if_neg (by omega),
    if_pos (by simp only [Bool.and_eq_true, decide_eq_true_eq]; omega),
    if_pos h2]

theorem udec_three (b b2 b3 : Nat) (bs : List Nat) (hb : 224 ≤ b ∧ b ≤ 239)
    (hc : cont3 b b2 = true) (h3 : contByte b3 = true) :
    utf8DecodeRep (b :: b2 :: b3 :: bs) =
      Char.ofNat ((b - 224) * 4096 + (b2 - 128) * 64 + (b3 - 128)) ::
        utf8DecodeRep bs := by
  conv_lhs => rw [utf8DecodeRep.eq_def]
  dsimp only
  rw [if_neg (by omega),
    if_neg (by simp only [Bool.and_eq_true, decide_eq_true_eq]; omega),
    if_pos (by simp only [Bool.and_eq_true, decide_eq_true_eq]; omega),
    if_pos hc]
  rw [if_pos h3]

theorem udec_four (b b2 b3 b4 : Nat) (bs : List Nat)
    (hb : 240 ≤ b ∧ b ≤ 244) (hc : cont4 b b2 = true)
    (h3 : contByte b3 = true) (h4 : contByte b4 = true) :
    utf8DecodeRep (b :: b2 :: b3 :: b4 :: bs) =
      Char.ofNat ((b - 240) * 262144 + (b2 - 128) * 4096 + (b3 - 128) * 64 +
        (b4 - 128)) :: utf8DecodeRep bs := by
  conv_lhs => rw [utf8DecodeRep.eq_def]
  dsimp only
  rw [if_neg (by omega),
    if_neg (by simp only [Bool.and_eq_true, decide_eq_true_eq]; omega),
    if_neg (by simp only [Bool.and_eq_true, decide_eq_true_eq]; omega),
    if_pos (by simp only [Bool.and_eq_true, decide_eq_true_eq]; omega),
    if_pos hc]
  rw [if_pos h3, if_pos h4]

theorem utf8_dec_enc (c : Char) (bs : List Nat) :
    utf8DecodeRep (utf8EncodeCh c ++ bs) = c :: utf8DecodeRep bs := by
  have hv := char_valid_nat c
  by_cases h1 : c.toNat < 128
  · have e1 : utf8EncodeCh c = [c.toNat] := by
      unfold utf8EncodeCh
      rw [if_pos h1]
    rw [e1]
    show utf8DecodeRep (c.toNat :: bs) = _
    rw [udec_one c.toNat h1 bs, Char.ofNat_toNat]
  · by_cases h2 : c.toNat < 2048
    · have e1 : utf8EncodeCh c = [192 + c.toNat / 64, 128 + c.toNat % 64] := by
        unfold utf8EncodeCh
        rw [if_neg h1, if_pos h2]
      rw [e1]
      show utf8DecodeRep ((192 + c.toNat / 64) :: (128 + c.toNat % 64) :: bs) = _
      rw [udec_two _ _ bs (by omega)
        (by simp only [contByte, Bool.and_eq_true, decide_eq_true_eq]; omega)]
      rw [show (192 + c.toNat / 64 - 192) * 64 + (128 + c.toNat % 64 - 128) =
        c.toNat by omega]
      rw [Char.ofNat_toNat]
    · by_cases h3 : c.toNat < 65536
      · have e1 : utf8EncodeCh c = [224 + c.toNat / 4096,
            128 + c.toNat / 64 % 64, 128 + c.toNat % 64] := by
          unfold utf8EncodeCh
          rw [if_neg h1, if_neg h2, if_pos h3]
        rw [e1]
        show utf8DecodeRep ((224 + c.toNat / 4096) ::
          (128 + c.toNat / 64 % 64) :: (128 + c.toNat % 64) :: bs) = _
        rw [udec_three _ _ _ bs (by omega)
          (by simp only [cont3, contByte, Bool.or_eq_true, Bool.and_eq_true,
            decide_eq_true_eq]; omega)
          (by simp only [contByte, Bool.and_eq_true, decide_eq_true_eq]; omega)]
        rw [show (224 + c.toNat / 4096 - 224) * 4096 +
          (128 + c.toNat / 64 % 64 - 128) * 64 + (128 + c.toNat % 64 - 128) =
          c.toNat by omega]
        rw [Char.ofNat_toNat]
      · have e1 : utf8EncodeCh c = [240 + c.toNat / 262144,
            128 + c.toNat / 4096 % 64, 128 + c.toNat / 64 % 64,
            128 + c.toNat % 64] := by
          unfold utf8EncodeCh
          rw [if_neg h1, if_neg h2, if_neg h3]
        rw [e1]
        show utf8DecodeRep ((240 + c.toNat / 262144) ::
          (128 + c.toNat / 4096 % 64) :: (128 + c.toNat / 64 % 64) ::
          (128 + c.toNat % 64) :: bs) = _
        rw [udec_four _ _ _ _ bs (by omega)
          (by simp only [cont4, contByte, Bool.or_eq_true, Bool.and_eq_true,
            decide_eq_true_eq]; omega)
          (by simp only [contByte, Bool.and_eq_true, decide_eq_true_eq]; omega)
          (by simp only [contByte, Bool.and_eq_true, decide_eq_true_eq]; omega)]
        rw [show (240 + c.toNat / 262144 - 240) * 262144 +
          (128 + c.toNat / 4096 % 64 - 128) * 4096 +
          (128 + c.toNat / 64 % 64 - 128) * 64 + (128 + c.toNat % 64 - 128) =
          c.toNat by omega]
        rw [Char.ofNat_toNat]

theorem utf8_dec_enc_str (s : Str) :
    utf8DecodeRep (utf8EncodeStr s) = s := by
  induction s with
  | nil =>
    show utf8DecodeRep [] = []
    rw [utf8DecodeRep.eq_def]
  | cons c cs ih =>
    show utf8DecodeRep (utf8EncodeCh c ++ utf8EncodeStr cs) = _
    rw [utf8_dec_enc, ih]

/-! ### Percent-encoding round trip -/

theorem utf8EncodeStr_lt (s : Str) : ∀ b ∈ utf8EncodeStr s, b < 256 := by
  induction s with
  | nil => intro b hb; exact absurd hb (by simp [utf8EncodeStr])
  | cons c cs ih =>
    intro b hb
    rcases List.mem_append.mp hb with h | h
    · exact utf8EncodeCh_lt c b h
    · exact ih b h

theorem utb_cons_ne (c : Char) (cs : Str) (h : c ≠ '%') :
    unquoteToBytes (c :: cs) = c.toNat :: unquoteToBytes cs := by
  cases cs with
  | nil =>
    conv_lhs => rw [unquoteToBytes.eq_def]
    dsimp only
    rw [if_neg h]
  | cons d rest =>
    cases rest with
    | nil =>
      conv_lhs => rw [unquoteToBytes.eq_def]
      dsimp only
      rw [if_neg h]
    | cons e rest2 =>
      conv_lhs => rw [unquoteToBytes.eq_def]
      dsimp only
      rw [if_neg h]

theorem utb_pct_hex (h1 h2 : Char) (r : Str)
    (hh : (isHexCh h1 && isHexCh h2) = true) :
    unquoteToBytes ('%' :: h1 :: h2 :: r) =
      (hexValCh h1 * 16 + hexValCh h2) :: unquoteToBytes r := by
  conv_lhs => rw [unquoteToBytes.eq_def]
  dsimp only
  rw [if_pos rfl, if_pos hh]

theorem hexDigit_isHex (n : Nat) (h : n < 16) :
    isHexCh (hexDigitCh n) = true := by
  interval_cases n <;> decide

theorem hexDigit_val (n : Nat) (h : n < 16) : hexValCh (hexDigitCh n) = n := by
  interval_cases n <;> decide

theorem hexDigit_safe (n : Nat) (h : n < 16) :
    safeByte (hexDigitCh n).toNat = true := by
  interval_cases n <;> decide

theorem hexDigit_ne_plus (n : Nat) (h : n < 16) : hexDigitCh n ≠ '+' := by
  interval_cases n <;> decide

theorem hexDigit_ne_pct (n : Nat) (h : n < 16) : hexDigitCh n ≠ '%' := by
  interval_cases n <;> decide

theorem quotePlusBytes_chars (bl : List Nat) (hb : ∀ b ∈ bl, b < 256) :
    ∀ c ∈ quotePlusBytes bl,
    c = '%' ∨ c = '+' ∨ safeByte c.toNat = true := by
  induction bl with
  | nil => intro c hc; exact absurd hc (by simp [quotePlusBytes])
  | cons b rest ih =>
    have hb' : ∀ x ∈ rest, x < 256 := fun x hx =>
      hb x (List.mem_cons_of_mem _ hx)
    intro c hc
    simp only [quotePlusBytes] at hc
    split at hc
    · rcases List.mem_cons.mp hc with rfl | hc'
      · exact Or.inr (Or.inl rfl)
      · exact ih hb' c hc'
    · split at hc
      · rcases List.mem_cons.mp hc with rfl | hc'
        · rename_i hsafe
          refine Or.inr (Or.inr ?_)
          rwa [toNat_ofNat_lt b (by
            simp only [safeByte, Bool.or_eq_true, Bool.and_eq_true,
              decide_eq_true_eq] at hsafe
            omega)]
        · exact ih hb' c hc'
      · rcases List.mem_cons.mp hc with rfl | hc'
        · exact Or.inl rfl
        · rcases List.mem_cons.mp hc' with rfl | hc''
          · exact Or.inr (Or.inr (hexDigit_safe _ (by
              have := hb b (List.mem_cons_self _ _); omega)))
          · rcases List.mem_cons.mp hc'' with rfl | hc3
            · exact Or.inr (Or.inr (hexDigit_safe _ (by omega)))
            · exact ih hb' c hc3

theorem safe_char_ne (b : Nat) (hs : safeByte b = true) :
    Char.ofNat b ≠ '%' ∧ Char.ofNat b ≠ '+' ∧ (Char.ofNat b).toNat = b := by
  have hb : b < 55296 := by
    simp only [safeByte, Bool.or_eq_true, Bool.and_eq_true,
      decide_eq_true_eq] at hs
    omega
  have ht := toNat_ofNat_lt b hb
  refine ⟨fun he => ?_, fun he => ?_, ht⟩
  · rw [he, show ('%' : Char).toNat = 37 from rfl] at ht
    simp only [safeByte, Bool.or_eq_true, Bool.and_eq_true,
      decide_eq_true_eq] at hs
    omega
  · rw [he, show ('+' : Char).toNat = 43 from rfl] at ht
    simp only [safeByte, Bool.or_eq_true, Bool.and_eq_true,
      decide_eq_true_eq] at hs
    omega

theorem utb_quote (bl : List Nat) (hb : ∀ b ∈ bl, b < 256) :
    unquoteToBytes ((quotePlusBytes bl).map
      fun c => if c = '+' then ' ' else c) = bl := by
  induction bl with
  | nil =>
    show unquoteToBytes [] = []
    rw [unquoteToBytes.eq_def]
  | cons b rest ih =>
    have hb' : ∀ x ∈ rest, x < 256 := fun x hx =>
      hb x (List.mem_cons_of_mem _ hx)
    have hblt := hb b (List.mem_cons_self _ _)
    simp only [quotePlusBytes]
    split
    · rename_i h32
      simp only [List.map_cons]
      rw [if_pos trivial, utb_cons_ne ' ' _ (by decide), ih hb']
      rw [h32]
      rfl
    · split
      · rename_i hsafe
        obtain ⟨hne1, hne2, ht⟩ := safe_char_ne b hsafe
        simp only [List.map_cons, if_neg hne2]
        rw [utb_cons_ne _ _ hne1, ih hb', ht]
      · simp only [List.map_cons, if_neg (show ('%' : Char) ≠ '+' by decide),
          if_neg (hexDigit_ne_plus (b / 16) (by omega)),
          if_neg (hexDigit_ne_plus (b % 16) (by omega))]
        rw [utb_pct_hex _ _ _ (by
          rw [Bool.and_eq_true, hexDigit_isHex (b / 16) (by omega),
            hexDigit_isHex (b % 16) (by omega)]
          exact ⟨rfl, rfl⟩)]
        rw [hexDigit_val (b / 16) (by omega), hexDigit_val (b % 16) (by omega),
          ih hb']
        congr 1
        omega

theorem uqGo_ascii :
    ∀ (u : Str) (acc : Str), (∀ c ∈ u, isAsciiCh c = true) →
    uqGo acc u = uqRun (acc.reverse ++ u) := by
  intro u
  induction u with
  | nil => intro acc _; simp [uqGo]
  | cons c cs ih =>
    intro acc h
    have hc := h c (List.mem_cons_self _ _)
    simp only [uqGo, if_pos hc]
    rw [ih (c :: acc) fun x hx => h x (List.mem_cons_of_mem _ hx)]
    simp [List.reverse_cons, List.append_assoc]

theorem pct_not_mem_quote (bl : List Nat)
    (hp : '%' ∉ quotePlusBytes bl) :
    ∀ b ∈ bl, b = 32 ∨ safeByte b = true := by
  induction bl with
  | nil => intro b hb; exact absurd hb (by simp)
  | cons b rest ih =>
    intro x hx
    simp only [quotePlusBytes] at hp
    rcases List.mem_cons.mp hx with rfl | hx'
    · by_cases h32 : x = 32
      · exact Or.inl h32
      · rw [if_neg h32] at hp
        by_cases hsafe : safeByte x = true
        · exact Or.inr hsafe
        · rw [if_neg hsafe] at hp
          exact absurd (List.mem_cons_self _ _) hp
    · refine ih (fun hm => hp ?_) x hx'
      split
      · exact List.mem_cons_of_mem _ hm
      · split
        · exact List.mem_cons_of_mem _ hm
        · exact List.mem_cons_of_mem _ (List.mem_cons_of_mem _
            (List.mem_cons_of_mem _ hm))

theorem ascii_encode (s : Str) (h : ∀ b ∈ utf8EncodeStr s, b < 128) :
    utf8EncodeStr s = s.map Char.toNat ∧ ∀ c ∈ s, c.toNat < 128 := by
  induction s with
  | nil => exact ⟨rfl, by simp⟩
  | cons c cs ih =>
    have hc : c.toNat < 128 := by
      by_contra hc
      have hv := char_valid_nat c
      have hmem : ∃ x ∈ utf8EncodeCh c, 128 ≤ x := by
        unfold utf8EncodeCh
        rw [if_neg hc]
        split
        · exact ⟨192 + c.toNat / 64, by simp, by omega⟩
        · split
          · exact ⟨224 + c.toNat / 4096, by simp, by omega⟩
          · exact ⟨240 + c.toNat / 262144, by simp, by omega⟩
      obtain ⟨x, hxm, hxge⟩ := hmem
      have := h x (List.mem_append.mpr (Or.inl hxm))
      omega
    have he : utf8EncodeCh c = [c.toNat] := by
      unfold utf8EncodeCh
      rw [if_pos hc]
    have hrest : ∀ b ∈ utf8EncodeStr cs, b < 128 := by
      intro b hb
      exact h b (List.mem_append.mpr (Or.inr hb))
    obtain ⟨ih1, ih2⟩ := ih hrest
    refine ⟨?_, ?_⟩
    · show utf8EncodeCh c ++ utf8EncodeStr cs = _
      rw [he, ih1]
      rfl
    · intro x hx
      rcases List.mem_cons.mp hx with rfl | hx'
      · exact hc
      · exact ih2 x hx'

theorem quote_ascii_self (s : Str)
    (h : ∀ c ∈ s, c.toNat = 32 ∨ safeByte c.toNat = true) :
    ((quotePlusBytes (s.map Char.toNat)).map
      fun c => if c = '+' then ' ' else c) = s := by
  induction s with
  | nil => rfl
  | cons c cs ih =>
    have hc := h c (List.mem_cons_self _ _)
    have ih' := ih fun x hx => h x (List.mem_cons_of_mem _ hx)
    simp only [List.map_cons, quotePlusBytes]
    rcases hc with h32 | hsafe
    · rw [if_pos h32]
      simp only [List.map_cons]
      rw [if_pos trivial, ih']
      have : (' ' : Char) = c := char_toNat_inj _ _ (by rw [h32]; rfl)
      rw [this]
    · have hne32 : ¬ c.toNat = 32 := by
        simp only [safeByte, Bool.or_eq_true, Bool.and_eq_true,
          decide_eq_true_eq] at hsafe
        omega
      rw [if_neg hne32, if_pos hsafe]
      simp only [List.map_cons]
      rw [Char.ofNat_toNat, ih']
      have hnp : c ≠ '+' := by
        intro he
        rw [he] at hsafe
        exact absurd hsafe (by decide)
      rw [if_neg hnp]

theorem unquotePlus_quotePlus (s : Str) : unquotePlus (quotePlus s) = s := by
  unfold unquotePlus pyUnquote quotePlus
  by_cases hp : '%' ∈ (quotePlusBytes (utf8EncodeStr s)).map
      fun c => if c = '+' then ' ' else c
  · rw [if_pos hp]
    have hascii : ∀ c ∈ (quotePlusBytes (utf8EncodeStr s)).map
        (fun c => if c = '+' then ' ' else c), isAsciiCh c = true := by
      intro c hc
      rcases List.mem_map.mp hc with ⟨d, hd, rfl⟩
      rcases quotePlusBytes_chars _ (utf8EncodeStr_lt s) d hd with
        rfl | rfl | hsafe
      · decide
      · decide
      · have : d.toNat < 128 := by
          simp only [safeByte, Bool.or_eq_true, Bool.and_eq_true,
            decide_eq_true_eq] at hsafe
          omega
        by_cases hdp : d = '+'
        · rw [if_pos hdp]; decide
        · rw [if_neg hdp]
          simpa [isAsciiCh] using this
    rw [uqGo_ascii _ [] hascii]
    show uqRun _ = s
    unfold uqRun
    rw [show (([] : Str).reverse ++ (quotePlusBytes (utf8EncodeStr s)).map
      (fun c => if c = '+' then ' ' else c)) =
      (quotePlusBytes (utf8EncodeStr s)).map
      (fun c => if c = '+' then ' ' else c) by simp]
    rw [utb_quote _ (utf8EncodeStr_lt s), utf8_dec_enc_str]
  · rw [if_neg hp]
    have hq : '%' ∉ quotePlusBytes (utf8EncodeStr s) := by
      intro hm
      exact hp (List.mem_map.mpr ⟨'%', hm, by rw [if_neg (by decide)]⟩)
    have hb2 := pct_not_mem_quote _ hq
    have hlt : ∀ b ∈ utf8EncodeStr s, b < 128 := by
      intro b hb
      rcases hb2 b hb with rfl | hsafe
      · omega
      · simp only [safeByte, Bool.or_eq_true, Bool.and_eq_true,
          decide_eq_true_eq] at hsafe
        omega
    obtain ⟨henc, hch⟩ := ascii_encode s hlt
    rw [henc]
    exact quote_ascii_self s fun c hc => by
      have := hb2 c.toNat (henc ▸ List.mem_map_of_mem _ hc)
      exact this

/-! ### `parse_qsl` / `urlencode` round trip -/

theorem not_mem_quotePlus (s : Str) (d : Char) (h1 : d ≠ '%') (h2 : d ≠ '+')
    (h3 : safeByte d.toNat = false) : d ∉ quotePlus s := by
  intro hm
  rcases quotePlusBytes_chars _ (utf8EncodeStr_lt s) d hm with rfl | rfl | hs
  · exact h1 rfl
  · exact h2 rfl
  · rw [hs] at h3
    exact absurd h3 (by decide)

theorem joinSep_ne_nil (sep : Char) (p : Str) (ps : List Str) (h : p ≠ []) :
    joinSep sep (p :: ps) ≠ [] := by
  cases ps with
  | nil => exact h
  | cons q qs =>
    show p ++ sep :: joinSep sep (q :: qs) ≠ []
    cases p with
    | nil => simp
    | cons c cs => simp

theorem piece_ne_nil (a b : Str) (c : Char) : a ++ c :: b ≠ [] := by
  cases a <;> simp

theorem parse_pieces (q : List (Str × Str)) :
    ((q.map fun kv => quotePlus kv.1 ++ '=' :: quotePlus kv.2).foldr
      (fun piece acc =>
        if piece = [] then acc
        else
          match splitAtCh '=' piece with
          | some (n, v) => (unquotePlus n, unquotePlus v) :: acc
          | none => (unquotePlus piece, []) :: acc)
      []) = q := by
  induction q with
  | nil => rfl
  | cons kv rest ih =>
    simp only [List.map_cons, List.foldr_cons, ih]
    rw [if_neg (piece_ne_nil _ _ '=')]
    rw [splitAtCh_append '=' _ _
      (not_mem_quotePlus kv.1 '=' (by decide) (by decide) (by decide))]
    dsimp only
    rw [unquotePlus_quotePlus, unquotePlus_quotePlus]

theorem parseQsl_urlencodeL (q : List (Str × Str)) :
    parseQsl (urlencodeL q) = q := by
  cases q with
  | nil => rfl
  | cons kv rest =>
    unfold parseQsl urlencodeL
    rw [if_neg (by
      simp only [List.map_cons]
      exact joinSep_ne_nil '&' _ _ (piece_ne_nil _ _ '='))]
    simp only [List.map_cons]
    rw [show (quotePlus kv.1 ++ '=' :: quotePlus kv.2) ::
        List.map (fun kv => quotePlus kv.1 ++ '=' :: quotePlus kv.2) rest =
        ((kv :: rest).map fun kv =>
          quotePlus kv.1 ++ '=' :: quotePlus kv.2) from by
      simp only [List.map_cons]]
    rw [show joinSep '&' (((kv :: rest).map fun kv =>
        quotePlus kv.1 ++ '=' :: quotePlus kv.2)) =
        joinSep '&' ((quotePlus kv.1 ++ '=' :: quotePlus kv.2) ::
          (rest.map fun kv => quotePlus kv.1 ++ '=' :: quotePlus kv.2)) from by
      simp only [List.map_cons]]
    rw [splitSep_joinSep '&' _ _ (by
      intro x hx
      rcases List.mem_cons.mp hx with rfl | hx'
      · intro hm
        rcases List.mem_append.mp hm with hm' | hm'
        · exact not_mem_quotePlus kv.1 '&' (by decide) (by decide)
            (by decide) hm'
        · rcases List.mem_cons.mp hm' with he | hm''
          · exact absurd he (by decide)
          · exact not_mem_quotePlus kv.2 '&' (by decide) (by decide)
              (by decide) hm''
      · rcases List.mem_map.mp hx' with ⟨kv', _, rfl⟩
        intro hm
        rcases List.mem_append.mp hm with hm' | hm'
        · exact not_mem_quotePlus kv'.1 '&' (by decide) (by decide)
            (by decide) hm'
        · rcases List.mem_cons.mp hm' with he | hm''
          · exact absurd he (by decide)
          · exact not_mem_quotePlus kv'.2 '&' (by decide) (by decide)
              (by decide) hm'')]
    exact parse_pieces (kv :: rest)

/-! ### Path stripping and whitespace lemmas -/

theorem dropWhile_dropWhile (p : α → Bool) (l : List α) :
    (l.dropWhile p).dropWhile p = l.dropWhile p := by
  induction l with
  | nil => rfl
  | cons c t ih =>
    rw [List.dropWhile_cons]
    by_cases h : p c = true
    · rw [if_pos h]
      exact ih
    · rw [if_neg h, List.dropWhile_cons, if_neg h]

theorem rstripSlash_idem (s : Str) :
    rstripSlash (rstripSlash s) = rstripSlash s := by
  show rstripSlash (((s.reverse.dropWhile fun c => c = '/')).reverse) = _
  unfold rstripSlash
  rw [List.reverse_reverse, dropWhile_dropWhile]

theorem dropWhile_eq_self_of (p : α → Bool) (l : List α)
    (h : ∀ c ∈ l, p c = false) : l.dropWhile p = l := by
  cases l with
  | nil => rfl
  | cons c t =>
    rw [List.dropWhile_cons, if_neg (by simp [h c (List.mem_cons_self _ _)])]

theorem pyStrip_eq_self (s : Str) (h : ∀ c ∈ s, pyIsSpace c = false) :
    pyStrip s = s := by
  unfold pyStrip
  rw [dropWhile_eq_self_of _ _ h,
    dropWhile_eq_self_of _ _ fun c hc => h c (List.mem_reverse.mp hc),
    List.reverse_reverse]

theorem rstripSlash_cons (c : Char) (t : Str) :
    rstripSlash (c :: t) =
      if rstripSlash t = [] then (if c = '/' then [] else [c])
      else c :: rstripSlash t := by
  show ((c :: t).reverse.dropWhile fun x => x = '/').reverse = _
  rw [List.reverse_cons, List.dropWhile_append]
  by_cases h : (t.reverse.dropWhile fun x => x = '/') = []
  · have hre : rstripSlash t = [] := by
      show (t.reverse.dropWhile fun x => x = '/').reverse = []
      rw [h]
      rfl
    rw [if_pos (by rw [h]; rfl), if_pos hre]
    by_cases hc : c = '/'
    · rw [if_pos hc, show List.dropWhile (fun x => x = '/') [c] = [] from by
        rw [List.dropWhile_cons, if_pos (by simp [hc])]
        rfl]
      rfl
    · rw [if_neg hc, show List.dropWhile (fun x => x = '/') [c] = [c] from by
        rw [List.dropWhile_cons, if_neg (by simp [hc])]]
      rfl
  · have hre : rstripSlash t ≠ [] := by
      intro hcon
      apply h
      have hcon' : (t.reverse.dropWhile fun x => x = '/').reverse = [] := hcon
      have := congrArg List.reverse hcon'
      rwa [List.reverse_reverse] at this
    rw [if_neg (by
      intro hcon
      rw [List.isEmpty_iff] at hcon
      exact h hcon), if_neg hre]
    rw [List.reverse_append]
    rfl

theorem rstripSlash_head (c : Char) (t : Str) :
    rstripSlash (c :: t) = [] ∨ ∃ t', rstripSlash (c :: t) = c :: t' := by
  rw [rstripSlash_cons]
  by_cases h1 : rstripSlash t = []
  · rw [if_pos h1]
    by_cases h2 : c = '/'
    · rw [if_pos h2]
      exact Or.inl rfl
    · rw [if_neg h2]
      exact Or.inr ⟨[], rfl⟩
  · rw [if_neg h1]
    exact Or.inr ⟨rstripSlash t, rfl⟩

theorem rstripSlash_mem (s : Str) (c : Char) (h : c ∈ rstripSlash s) :
    c ∈ s := by
  have h' : c ∈ (s.reverse.dropWhile fun x => x = '/').reverse := h
  rw [List.mem_reverse] at h'
  have hsub : (s.reverse.dropWhile fun x => x = '/').Sublist s.reverse :=
    List.dropWhile_sublist _
  exact List.mem_reverse.mp (hsub.mem h')

theorem takeWhile_append_all (p : α → Bool) (a b : List α)
    (ha : ∀ c ∈ a, p c = true) :
    (a ++ b).takeWhile p = a ++ b.takeWhile p := by
  induction a with
  | nil => rfl
  | cons c t ih =>
    rw [List.cons_append, List.takeWhile_cons,
      if_pos (ha c (List.mem_cons_self _ _)), List.cons_append,
      ih fun x hx => ha x (List.mem_cons_of_mem _ hx)]

theorem dropWhile_append_all (p : α → Bool) (a b : List α)
    (ha : ∀ c ∈ a, p c = true) :
    (a ++ b).dropWhile p = b.dropWhile p := by
  induction a with
  | nil => rfl
  | cons c t ih =>
    rw [List.cons_append, List.dropWhile_cons,
      if_pos (ha c (List.mem_cons_self _ _)),
      ih fun x hx => ha x (List.mem_cons_of_mem _ hx)]

/-! ### Character-class facts used by the idempotence development -/

theorem notTab_of_not_space (c : Char) (h : pyIsSpace c = false) :
    (!(c = '\t' || c = '\r' || c = '\n')) = true := by
  simp only [Bool.not_eq_true', Bool.or_eq_false_iff,
    decide_eq_false_iff_not]
  refine ⟨⟨?_, ?_⟩, ?_⟩ <;> intro hc <;> rw [hc] at h <;>
    exact absurd h (by decide)

theorem safeByte_props (c : Char) (h : safeByte c.toNat = true) :
    pyIsSpace c = false ∧ c ≠ '#' ∧ c ≠ '?' := by
  refine ⟨?_, ?_, ?_⟩
  · simp only [safeByte, Bool.or_eq_true, Bool.and_eq_true,
      decide_eq_true_eq] at h
    simp only [pyIsSpace, Bool.or_eq_false_iff, Bool.and_eq_false_iff,
      decide_eq_false_iff_not]
    omega
  · intro hc
    rw [hc] at h
    exact absurd h (by decide)
  · intro hc
    rw [hc] at h
    exact absurd h (by decide)

theorem joinSep_mem (sep : Char) :
    ∀ (l : List Str) (c : Char), c ∈ joinSep sep l →
    c = sep ∨ ∃ p ∈ l, c ∈ p := by
  intro l
  induction l with
  | nil =>
    intro c hc
    exact absurd hc (by simp [joinSep])
  | cons x t ih =>
    intro c hc
    cases t with
    | nil =>
      right
      exact ⟨x, List.mem_singleton_self x, hc⟩
    | cons y s =>
      have hc' : c ∈ x ++ sep :: joinSep sep (y :: s) := hc
      rcases List.mem_append.mp hc' with h | h
      · right
        exact ⟨x, List.mem_cons_self _ _, h⟩
      · rcases List.mem_cons.mp h with rfl | h2
        · left
          rfl
        · rcases ih c h2 with h3 | ⟨p, hp, hcp⟩
          · left
            exact h3
          · right
            exact ⟨p, List.mem_cons_of_mem _ hp, hcp⟩

theorem urlencodeL_chars (q : List (Str × Str)) (c : Char)
    (hc : c ∈ urlencodeL q) :
    c = '&' ∨ c = '=' ∨ c = '%' ∨ c = '+' ∨ safeByte c.toNat = true := by
  rcases joinSep_mem '&' _ c hc with rfl | ⟨p, hp, hcp⟩
  · exact Or.inl rfl
  · rcases List.mem_map.mp hp with ⟨kv, _, rfl⟩
    rcases List.mem_append.mp hcp with h | h
    · rcases quotePlusBytes_chars _ (utf8EncodeStr_lt kv.1) c h with h1 | h1 | h1
      · exact Or.inr (Or.inr (Or.inl h1))
      · exact Or.inr (Or.inr (Or.inr (Or.inl h1)))
      · exact Or.inr (Or.inr (Or.inr (Or.inr h1)))
    · rcases List.mem_cons.mp h with rfl | h2
      · exact Or.inr (Or.inl rfl)
      · rcases quotePlusBytes_chars _ (utf8EncodeStr_lt kv.2) c h2 with
          h1 | h1 | h1
        · exact Or.inr (Or.inr (Or.inl h1))
        · exact Or.inr (Or.inr (Or.inr (Or.inl h1)))
        · exact Or.inr (Or.inr (Or.inr (Or.inr h1)))

theorem urlencode_char_props (q : List (Str × Str)) (c : Char)
    (hc : c ∈ urlencodeL q) :
    pyIsSpace c = false ∧ c ≠ '#' ∧ c ≠ '?' := by
  rcases urlencodeL_chars q c hc with rfl | rfl | rfl | rfl | h
  · exact ⟨by decide, by decide, by decide⟩
  · exact ⟨by decide, by decide, by decide⟩
  · exact ⟨by decide, by decide, by decide⟩
  · exact ⟨by decide, by decide, by decide⟩
  · exact safeByte_props c h

theorem dropWhile_head_prop (p : α → Bool) (l : List α) :
    l.dropWhile p = [] ∨
    ∃ x t, l.dropWhile p = x :: t ∧ p x = false := by
  induction l with
  | nil => exact Or.inl rfl
  | cons c t ih =>
    rw [List.dropWhile_cons]
    by_cases h : p c = true
    · rw [if_pos h]
      exact ih
    · rw [if_neg h]
      exact Or.inr ⟨c, t, rfl, by simpa using h⟩

theorem splitAtCh_of_mem (ch : Char) :
    ∀ (s : Str), ch ∈ s → ∃ a b, splitAtCh ch s = some (a, b) := by
  intro s
  induction s with
  | nil => intro h; exact absurd h (List.not_mem_nil ch)
  | cons c cs ih =>
    intro h
    by_cases hc : c = ch
    · exact ⟨[], cs, by rw [splitAtCh, if_pos hc]⟩
    · have hm : ch ∈ cs := by
        rcases List.mem_cons.mp h with h1 | h1
        · exact absurd h1.symm hc
        · exact h1
      obtain ⟨a, b, hab⟩ := ih hm
      refine ⟨c :: a, b, ?_⟩
      rw [splitAtCh, if_neg hc, hab]

theorem splitAtCh_fst_shape (ch x : Char) (t a b : Str) (hx : x ≠ ch)
    (h : splitAtCh ch (x :: t) = some (a, b)) : ∃ a', a = x :: a' := by
  rw [splitAtCh, if_neg hx] at h
  cases hsub : splitAtCh ch t with
  | none =>
    rw [hsub] at h
    exact absurd h (by simp)
  | some p =>
    obtain ⟨a0, b0⟩ := p
    rw [hsub] at h
    refine ⟨a0, ?_⟩
    have := (Prod.mk.injEq _ _ _ _).mp (Option.some.inj h)
    exact this.1.symm

theorem any_eq_of (l : List Char) (f g : Char → Bool)
    (h : ∀ c, f c = g c) : l.any f = l.any g := by
  induction l with
  | nil => rfl
  | cons c t ih => rw [List.any_cons, List.any_cons, h, ih]

theorem toLower_eq_iff_of_sym (c d : Char)
    (hd1 : ¬(97 ≤ d.toNat ∧ d.toNat ≤ 122))
    (hd2 : ¬(65 ≤ d.toNat ∧ d.toNat ≤ 90)) :
    (Char.toLower c = d) = (c = d) := by
  apply propext
  constructor
  · exact toLower_eq_of_not_lower c d hd1
  · intro h
    rw [h]
    exact toLower_eq_self_of_not_upper d hd2

theorem bracketsOk_lowerStr (n : Str) (h : bracketsOk n = true) :
    bracketsOk (lowerStr n) = true := by
  unfold bracketsOk at h ⊢
  rw [decide_eq_true_eq] at h ⊢
  unfold lowerStr
  rw [List.any_map, List.any_map]
  have e1 : (n.any ((fun c => decide (c = '[')) ∘ Char.toLower)) =
      n.any fun c => decide (c = '[') :=
    any_eq_of n _ _ fun c => by
      simp only [Function.comp]
      exact decide_eq_decide.mpr
        (iff_of_eq (toLower_eq_iff_of_sym c '[' (by decide) (by decide)))
  have e2 : (n.any ((fun c => decide (c = ']')) ∘ Char.toLower)) =
      n.any fun c => decide (c = ']') :=
    any_eq_of n _ _ fun c => by
      simp only [Function.comp]
      exact decide_eq_decide.mpr
        (iff_of_eq (toLower_eq_iff_of_sym c ']' (by decide) (by decide)))
  rw [e1, e2]
  exact h

theorem netlocDelim_toLower (c : Char) (h : netlocDelim c = false) :
    netlocDelim (Char.toLower c) = false := by
  unfold netlocDelim at h ⊢
  simp only [Bool.or_eq_false_iff, decide_eq_false_iff_not] at h ⊢
  exact ⟨⟨toLower_ne_of_not_lower c '/' (by decide) h.1.1,
    toLower_ne_of_not_lower c '?' (by decide) h.1.2⟩,
    toLower_ne_of_not_lower c '#' (by decide) h.2⟩

/-! ### Structure of the `urlsplit` components -/

theorem splitSchemePart_cases (u : Str) :
    splitSchemePart u = ([], u) ∨
    (∃ pre post, u = pre ++ ':' :: post ∧ pre ≠ [] ∧
      isAsciiAlpha (pre.headD 'a') = true ∧ pre.all schemeChar = true ∧
      splitSchemePart u = (lowerStr pre, post)) := by
  cases hsp : splitAtCh ':' u with
  | none =>
    left
    rw [splitSchemePart, hsp]
  | some pr =>
    obtain ⟨pre, post⟩ := pr
    cases pre with
    | nil =>
      left
      rw [splitSchemePart, hsp]
    | cons p ps =>
      by_cases hcond : (isAsciiAlpha p && (p :: ps).all schemeChar) = true
      · right
        obtain ⟨hstruct, _⟩ := splitAtCh_some_structure ':' u (p :: ps) post hsp
        rw [Bool.and_eq_true] at hcond
        refine ⟨p :: ps, post, hstruct, by simp, hcond.1, hcond.2, ?_⟩
        rw [splitSchemePart, hsp]
        dsimp only
        rw [if_pos (Bool.and_eq_true _ _ |>.mpr hcond)]
      · left
        rw [splitSchemePart, hsp]
        dsimp only
        rw [if_neg hcond]

theorem splitSchemePart_of_valid (sch rest : Str) (hne : sch ≠ [])
    (hhead : isAsciiAlpha (sch.headD 'a') = true)
    (hall : sch.all schemeChar = true) (hlow : lowerStr sch = sch) :
    splitSchemePart (sch ++ ':' :: rest) = (sch, rest) := by
  have hcolon : ':' ∉ sch := by
    intro hm
    have := List.all_eq_true.mp hall ':' hm
    exact absurd this (by decide)
  rw [splitSchemePart, splitAtCh_append ':' sch rest hcolon]
  cases sch with
  | nil => exact absurd rfl hne
  | cons p ps =>
    dsimp only
    rw [if_pos (show (isAsciiAlpha p && (p :: ps).all schemeChar) = true from
      Bool.and_eq_true _ _ |>.mpr ⟨hhead, hall⟩), hlow]

theorem splitNetlocPart_reconstruct (n : Str) (d : Char) (t : Str)
    (hn : ∀ c ∈ n, netlocDelim c = false) (hd : netlocDelim d = true) :
    splitNetlocPart (n ++ d :: t) = (n, d :: t) := by
  unfold splitNetlocPart
  rw [takeWhile_append_all _ _ _ (fun c hc => by rw [hn c hc]; rfl),
    dropWhile_append_all _ _ _ (fun c hc => by rw [hn c hc]; rfl),
    List.takeWhile_cons, if_neg (by rw [hd]; simp),
    List.dropWhile_cons, if_neg (by rw [hd]; simp), List.append_nil]

theorem leadMatch_slash2_shape (s : Str)
    (h : leadMatch ['/', '/'] s = true) : ∃ t, s = '/' :: '/' :: t := by
  cases s with
  | nil => exact absurd h (by decide)
  | cons x s1 =>
    cases s1 with
    | nil =>
      refine absurd h ?_
      show (decide ('/' = x) && leadMatch ['/'] ([] : Str)) ≠ true
      rw [show leadMatch ['/'] ([] : Str) = false from rfl, Bool.and_false]
      simp
    | cons y t =>
      have h' : (decide ('/' = x) &&
          (decide ('/' = y) && leadMatch ([] : Str) t)) = true := h
      rw [show leadMatch ([] : Str) t = true from rfl, Bool.and_true,
        Bool.and_eq_true, decide_eq_true_eq, decide_eq_true_eq] at h'
      exact ⟨t, by rw [← h'.1, ← h'.2]⟩

theorem leadMatch2_append (a b : Str) (ha : a ≠ [])
    (hno : leadMatch ['/', '/'] a = false)
    (hb : leadMatch ['/'] b = false) :
    leadMatch ['/', '/'] (a ++ b) = false := by
  cases a with
  | nil => exact absurd rfl ha
  | cons x a1 =>
    cases a1 with
    | nil =>
      cases b with
      | nil => exact hno
      | cons y t =>
        show (decide ('/' = x) && leadMatch ['/'] (y :: t)) = false
        rw [hb, Bool.and_false]
    | cons y a2 =>
      show (decide ('/' = x) &&
        (decide ('/' = y) && leadMatch ([] : Str) (a2 ++ b))) = false
      have h2 : (decide ('/' = x) &&
          (decide ('/' = y) && leadMatch ([] : Str) a2)) = false := hno
      rw [show leadMatch ([] : Str) a2 = true from rfl] at h2
      rw [show leadMatch ([] : Str) (a2 ++ b) = true from rfl]
      exact h2

set_option maxHeartbeats 1600000 in
theorem urlunsplitP_mem (sch nl pa q fr : Str) (c : Char)
    (hc : c ∈ urlunsplitP sch nl pa q fr) :
    c ∈ sch ∨ c ∈ nl ∨ c ∈ pa ∨ c ∈ q ∨ c ∈ fr ∨
    c = ':' ∨ c = '/' ∨ c = '?' ∨ c = '#' := by
  simp only [urlunsplitP] at hc
  split at hc <;> split at hc <;> split at hc <;> split at hc <;>
    (try split at hc) <;>
    (try simp only [List.mem_append, List.mem_cons] at hc) <;> tauto

theorem char_le_toNat (a b : Char) : (a ≤ b) ↔ a.toNat ≤ b.toNat :=
  ⟨fun h => h, fun h => h⟩

theorem isAsciiAlpha_of_range (c : Char)
    (h1 : 97 ≤ c.toNat) (h2 : c.toNat ≤ 122) : isAsciiAlpha c = true := by
  simp only [isAsciiAlpha, Bool.or_eq_true, Bool.and_eq_true,
    decide_eq_true_eq, char_le_toNat]
  rw [show ('A' : Char).toNat = 65 from rfl,
    show ('Z' : Char).toNat = 90 from rfl,
    show ('a' : Char).toNat = 97 from rfl,
    show ('z' : Char).toNat = 122 from rfl]
  omega

theorem isAsciiAlpha_toLower (c : Char) (h : isAsciiAlpha c = true) :
    isAsciiAlpha (Char.toLower c) = true := by
  rcases toLower_eq_self_or_range c with h' | h'
  · rw [h']
    exact h
  · exact isAsciiAlpha_of_range _ h'.1 h'.2

theorem schemeChar_toLower (c : Char) (h : schemeChar c = true) :
    schemeChar (Char.toLower c) = true := by
  rcases toLower_eq_self_or_range c with h' | h'
  · rw [h']
    exact h
  · unfold schemeChar
    rw [isAsciiAlpha_of_range _ h'.1 h'.2]
    rfl

theorem splitAtCh_none_of_eq_none (ch : Char) (s : Str)
    (hn : splitAtCh ch s = none) : ch ∉ s := by
  intro hm
  obtain ⟨a, b, hab⟩ := splitAtCh_of_mem ch s hm
  rw [hab] at hn
  exact absurd hn (by simp)

theorem doubleSplit_facts (R0 : Str) (fr qr : Str × Str)
    (hfr : (match splitAtCh '#' R0 with
            | some (a, b) => (a, b)
            | none => (R0, [])) = fr)
    (hqr : (match splitAtCh '?' fr.1 with
            | some (a, b) => (a, b)
            | none => (fr.1, [])) = qr) :
    (∀ c ∈ qr.1, c ≠ '#' ∧ c ≠ '?' ∧ c ∈ R0) ∧
    (∀ x t0, R0 = x :: t0 → qr.1 = [] ∨ ∃ t1, qr.1 = x :: t1) ∧
    (R0 = [] → qr.1 = []) := by
  cases h1 : splitAtCh '#' R0 with
  | none =>
    have hn1 : '#' ∉ R0 := splitAtCh_none_of_eq_none _ _ h1
    rw [h1] at hfr
    dsimp only at hfr
    subst hfr
    cases h2 : splitAtCh '?' R0 with
    | none =>
      have hn2 : '?' ∉ R0 := splitAtCh_none_of_eq_none _ _ h2
      rw [h2] at hqr
      dsimp only at hqr
      subst hqr
      refine ⟨?_, ?_, ?_⟩
      · intro c hc
        exact ⟨fun he => hn1 (he ▸ hc), fun he => hn2 (he ▸ hc), hc⟩
      · intro x t0 hR
        exact Or.inr ⟨t0, hR⟩
      · intro hR
        exact hR
    | some p =>
      obtain ⟨a, b⟩ := p
      obtain ⟨hst, hna⟩ := splitAtCh_some_structure '?' R0 a b h2
      rw [h2] at hqr
      dsimp only at hqr
      subst hqr
      refine ⟨?_, ?_, ?_⟩
      · intro c hc
        refine ⟨fun he => hn1 ?_, fun he => hna (he ▸ hc), ?_⟩
        · rw [hst]
          exact List.mem_append_left _ (he ▸ hc)
        · rw [hst]
          exact List.mem_append_left _ hc
      · intro x t0 hR
        cases a with
        | nil => exact Or.inl rfl
        | cons c a' =>
          rw [hR, List.cons_append] at hst
          exact Or.inr ⟨a', by rw [(List.cons.injEq _ _ _ _ |>.mp hst).1]⟩
      · intro hR
        rw [hR] at hst
        exact absurd hst.symm (by simp)
  | some p0 =>
    obtain ⟨a0, b0⟩ := p0
    obtain ⟨hst0, hna0⟩ := splitAtCh_some_structure '#' R0 a0 b0 h1
    rw [h1] at hfr
    dsimp only at hfr
    subst hfr
    cases h2 : splitAtCh '?' a0 with
    | none =>
      have hn2 : '?' ∉ a0 := splitAtCh_none_of_eq_none _ _ h2
      rw [h2] at hqr
      dsimp only at hqr
      subst hqr
      refine ⟨?_, ?_, ?_⟩
      · intro c hc
        refine ⟨fun he => hna0 (he ▸ hc), fun he => hn2 (he ▸ hc), ?_⟩
        rw [hst0]
        exact List.mem_append_left _ hc
      · intro x t0 hR
        cases a0 with
        | nil => exact Or.inl rfl
        | cons c a' =>
          rw [hR, List.cons_append] at hst0
          exact Or.inr ⟨a', by rw [(List.cons.injEq _ _ _ _ |>.mp hst0).1]⟩
      · intro hR
        rw [hR] at hst0
        exact absurd hst0.symm (by simp)
    | some p1 =>
      obtain ⟨a1, b1⟩ := p1
      obtain ⟨hst1, hna1⟩ := splitAtCh_some_structure '?' a0 a1 b1 h2
      rw [h2] at hqr
      dsimp only at hqr
      subst hqr
      refine ⟨?_, ?_, ?_⟩
      · intro c hc
        have hca0 : c ∈ a0 := by
          rw [hst1]
          exact List.mem_append_left _ hc
        refine ⟨fun he => hna0 (he ▸ hca0), fun he => hna1 (he ▸ hc), ?_⟩
        rw [hst0]
        exact List.mem_append_left _ hca0
      · intro x t0 hR
        cases a1 with
        | nil => exact Or.inl rfl
        | cons c a' =>
          rw [hst1, List.cons_append] at hst0
          rw [hR] at hst0
          exact Or.inr ⟨a', by rw [(List.cons.injEq _ _ _ _ |>.mp hst0.symm).1]⟩
      · intro hR
        rw [hR] at hst0
        exact absurd hst0.symm (by simp)

theorem urlsplit_facts (u : Str) (hws : ∀ c ∈ u, pyIsSpace c = false)
    (s n r q f : Str) (h : urlsplitM u = some (s, n, r, q, f)) :
    (s = [] ∨ (s ≠ [] ∧ isAsciiAlpha (s.headD 'a') = true ∧
      s.all schemeChar = true ∧ lowerStr s = s)) ∧
    (∀ c ∈ s, pyIsSpace c = false) ∧
    (∀ c ∈ n, netlocDelim c = false) ∧
    (∀ c ∈ n, pyIsSpace c = false) ∧
    bracketsOk n = true ∧
    (∀ c ∈ r, c ≠ '#' ∧ c ≠ '?' ∧ c ∈ u) ∧
    (n ≠ [] → r = [] ∨ ∃ t, r = '/' :: t) := by
  have hfil : u.filter (fun c => !(c = '\t' || c = '\r' || c = '\n')) = u :=
    List.filter_eq_self.mpr fun c hc => notTab_of_not_space c (hws c hc)
  simp only [urlsplitM] at h
  rw [hfil] at h
  set S1 := (splitSchemePart u).1 with hS1
  set S2 := (splitSchemePart u).2 with hS2
  have hS2sub : ∀ c ∈ S2, c ∈ u := by
    rcases splitSchemePart_cases u with hc2 | ⟨pre, post, hupre, _, _, _, hc2⟩
    · intro c hc
      rw [hS2, hc2] at hc
      exact hc
    · intro c hc
      rw [hS2, hc2] at hc
      rw [hupre]
      exact List.mem_append_right _ (List.mem_cons_of_mem _ hc)
  have hschemeF : (S1 = [] ∨ (S1 ≠ [] ∧ isAsciiAlpha (S1.headD 'a') = true ∧
      S1.all schemeChar = true ∧ lowerStr S1 = S1)) ∧
      (∀ c ∈ S1, pyIsSpace c = false) := by
    rcases splitSchemePart_cases u with hc2 | ⟨pre, post, hupre, hprene,
      hheadp, hallp, hc2⟩
    · rw [hS1, hc2]
      exact ⟨Or.inl rfl, by intro c hc; exact absurd hc (by simp)⟩
    · rw [hS1, hc2]
      dsimp only
      cases pre with
      | nil => exact absurd rfl hprene
      | cons p ps =>
        constructor
        · right
          refine ⟨by simp [lowerStr], ?_, ?_, lowerStr_idem _⟩
          · simp only [lowerStr, List.map_cons]
            exact isAsciiAlpha_toLower p hheadp
          · rw [List.all_eq_true]
            intro c hc
            simp only [lowerStr] at hc
            rcases List.mem_map.mp hc with ⟨c0, hc0, rfl⟩
            exact schemeChar_toLower c0 (List.all_eq_true.mp hallp c0 hc0)
        · intro c hc
          simp only [lowerStr] at hc
          rcases List.mem_map.mp hc with ⟨c0, hc0, rfl⟩
          exact pyIsSpace_toLower c0 (hws c0 (by
            rw [hupre]
            exact List.mem_append_left _ hc0))
  by_cases hlm : leadMatch ['/', '/'] S2 = true
  · rw [if_pos hlm] at h
    simp only [splitNetlocPart] at h
    cases hB : bracketsOk ((S2.drop 2).takeWhile fun c => !netlocDelim c) with
    | false =>
      rw [hB] at h
      rw [if_pos (by decide)] at h
      exact absurd h (by simp)
    | true =>
      rw [hB] at h
      rw [if_neg (by decide)] at h
      obtain ⟨hds1, hds2, hds3⟩ := doubleSplit_facts
        ((S2.drop 2).dropWhile fun c => !netlocDelim c) _ _ rfl rfl
      rw [Option.some.injEq, Prod.mk.injEq, Prod.mk.injEq, Prod.mk.injEq,
        Prod.mk.injEq] at h
      obtain ⟨h1, h2, h3, h4, h5⟩ := h
      subst h1
      subst h2
      subst h3
      subst h4
      subst h5
      have hmemNT : ∀ c ∈ (S2.drop 2).takeWhile fun c => !netlocDelim c,
          c ∈ u := fun c hc => hS2sub c
        ((List.drop_sublist 2 S2).mem ((List.takeWhile_sublist _).mem hc))
      have hmemRD : ∀ c ∈ (S2.drop 2).dropWhile fun c => !netlocDelim c,
          c ∈ u := fun c hc => hS2sub c
        ((List.drop_sublist 2 S2).mem ((List.dropWhile_sublist _).mem hc))
      refine ⟨hschemeF.1, hschemeF.2, ?_, ?_, hB, ?_, ?_⟩
      · intro c hc
        have := List.mem_takeWhile_imp hc
        simpa using this
      · intro c hc
        exact hws c (hmemNT c hc)
      · intro c hc
        obtain ⟨ha, hb, hcmem⟩ := hds1 c hc
        exact ⟨ha, hb, hmemRD c hcmem⟩
      · intro _
        rcases dropWhile_head_prop (fun c => !netlocDelim c) (S2.drop 2) with
          hE | ⟨x, t, hE, hx⟩
        · exact Or.inl (hds3 hE)
        · rcases hds2 x t hE with hr0 | ⟨t1, hr1⟩
          · exact Or.inl hr0
          · have hdx : netlocDelim x = true := by simpa using hx
            simp only [netlocDelim, Bool.or_eq_true, decide_eq_true_eq] at hdx
            rcases hdx with (rfl | rfl) | rfl
            · exact Or.inr ⟨t1, hr1⟩
            · obtain ⟨_, hb, _⟩ :=
                hds1 '?' (by rw [hr1]; exact List.mem_cons_self _ _)
              exact absurd rfl hb
            · obtain ⟨ha, _, _⟩ :=
                hds1 '#' (by rw [hr1]; exact List.mem_cons_self _ _)
              exact absurd rfl ha
  · rw [if_neg hlm] at h
    dsimp only at h
    rw [if_neg (by decide)] at h
    obtain ⟨hds1, hds2, hds3⟩ := doubleSplit_facts S2 _ _ rfl rfl
    rw [Option.some.injEq, Prod.mk.injEq, Prod.mk.injEq, Prod.mk.injEq,
      Prod.mk.injEq] at h
    obtain ⟨h1, h2, h3, h4, h5⟩ := h
    subst h1
    subst h2
    subst h3
    subst h4
    subst h5
    refine ⟨hschemeF.1, hschemeF.2, ?_, ?_, by decide, ?_, ?_⟩
    · intro c hc
      exact absurd hc (by simp)
    · intro c hc
      exact absurd hc (by simp)
    · intro c hc
      obtain ⟨ha, hb, hcmem⟩ := hds1 c hc
      exact ⟨ha, hb, hS2sub c hcmem⟩
    · intro hne
      exact absurd rfl hne

theorem urlparse_facts (u : Str) (hws : ∀ c ∈ u, pyIsSpace c = false)
    (hsemi : ';' ∉ u) (P : UrlParts) (h : urlparseM u = some P) :
    (P.scheme = [] ∨ (P.scheme ≠ [] ∧
      isAsciiAlpha (P.scheme.headD 'a') = true ∧
      P.scheme.all schemeChar = true ∧ lowerStr P.scheme = P.scheme)) ∧
    (∀ c ∈ P.scheme, pyIsSpace c = false) ∧
    (∀ c ∈ P.netloc, netlocDelim c = false) ∧
    (∀ c ∈ P.netloc, pyIsSpace c = false) ∧
    bracketsOk P.netloc = true ∧
    (∀ c ∈ P.path, c ≠ '#' ∧ c ≠ '?' ∧ pyIsSpace c = false ∧ c ≠ ';') ∧
    (P.netloc ≠ [] → P.path = [] ∨ ∃ t, P.path = '/' :: t) ∧
    P.params = [] := by
  unfold urlparseM at h
  cases hsp : urlsplitM u with
  | none =>
    rw [hsp] at h
    exact absurd h (by simp)
  | some tup =>
    obtain ⟨s, n, r, q, f⟩ := tup
    obtain ⟨F1, F2, F3, F4, F5, F6, F7⟩ := urlsplit_facts u hws s n r q f hsp
    rw [hsp] at h
    dsimp only at h
    have hsemir : ';' ∉ r := fun hm => hsemi (F6 ';' hm).2.2
    rw [if_neg hsemir] at h
    dsimp only at h
    obtain rfl : (⟨s, n, r, [], q, f⟩ : UrlParts) = P := Option.some.inj h
    refine ⟨F1, F2, F3, F4, F5, ?_, F7, rfl⟩
    intro c hc
    obtain ⟨h1', h2', h3'⟩ := F6 c hc
    exact ⟨h1', h2', hws c h3', fun he => hsemi (he ▸ h3')⟩

theorem scheme2_facts (s s2 : Str)
    (hf : s = [] ∨ (s ≠ [] ∧ isAsciiAlpha (s.headD 'a') = true ∧
      s.all schemeChar = true ∧ lowerStr s = s))
    (hw : ∀ c ∈ s, pyIsSpace c = false)
    (hs2 : s2 = if (if s = [] then "https".toList else s) = "http".toList
      then "https".toList else (if s = [] then "https".toList else s)) :
    s2 ≠ [] ∧ isAsciiAlpha (s2.headD 'a') = true ∧
    s2.all schemeChar = true ∧ lowerStr s2 = s2 ∧
    s2 ≠ "http".toList ∧ (∀ c ∈ s2, pyIsSpace c = false) := by
  by_cases h0 : s = []
  · rw [if_pos h0, if_neg (by decide)] at hs2
    subst hs2
    exact ⟨by decide, by decide, by decide, by decide, by decide, by decide⟩
  · rw [if_neg h0] at hs2
    rcases hf with rfl | ⟨hne, hhd, hall, hlow⟩
    · exact absurd rfl h0
    by_cases h1 : s = "http".toList
    · rw [if_pos h1] at hs2
      subst hs2
      exact ⟨by decide, by decide, by decide, by decide, by decide, by decide⟩
    · rw [if_neg h1] at hs2
      subst hs2
      exact ⟨hne, hhd, hall, hlow, h1, hw⟩

theorem path2_facts (p p2 : Str)
    (hp : ∀ c ∈ p, c ≠ '#' ∧ c ≠ '?' ∧ pyIsSpace c = false ∧ c ≠ ';')
    (h2 : p2 = if rstripSlash p = [] then ['/'] else rstripSlash p) :
    p2 ≠ [] ∧
    (∀ c ∈ p2, c ≠ '#' ∧ c ≠ '?' ∧ pyIsSpace c = false ∧ c ≠ ';') ∧
    (if rstripSlash p2 = [] then ['/'] else rstripSlash p2) = p2 ∧
    ((p = [] ∨ ∃ t, p = '/' :: t) → ∃ t, p2 = '/' :: t) := by
  by_cases h0 : rstripSlash p = []
  · rw [if_pos h0] at h2
    subst h2
    refine ⟨by decide, ?_, by decide, fun _ => ⟨[], rfl⟩⟩
    intro c hc
    have := List.mem_singleton.mp hc
    subst this
    exact ⟨by decide, by decide, by decide, by decide⟩
  · rw [if_neg h0] at h2
    subst h2
    refine ⟨h0, ?_, ?_, ?_⟩
    · intro c hc
      exact hp c (rstripSlash_mem p c hc)
    · rw [rstripSlash_idem, if_neg h0]
    · intro hsh
      rcases hsh with rfl | ⟨t, rfl⟩
      · exact absurd rfl h0
      · rcases rstripSlash_head '/' t with hE | ⟨t', hE⟩
        · exact absurd hE h0
        · exact ⟨t', hE⟩

theorem urlsplit_round2 (sch nl pa q : Str)
    (hsch_ne : sch ≠ []) (hsch_hd : isAsciiAlpha (sch.headD 'a') = true)
    (hsch_all : sch.all schemeChar = true) (hsch_low : lowerStr sch = sch)
    (hnl : ∀ c ∈ nl, netlocDelim c = false)
    (hbr : bracketsOk nl = true)
    (hpa_ne : pa ≠ [])
    (hpa : ∀ c ∈ pa, c ≠ '#' ∧ c ≠ '?')
    (hq : ∀ c ∈ q, c ≠ '#' ∧ c ≠ '?')
    (hwsch : ∀ c ∈ sch, pyIsSpace c = false)
    (hwnl : ∀ c ∈ nl, pyIsSpace c = false)
    (hwpa : ∀ c ∈ pa, pyIsSpace c = false)
    (hwq : ∀ c ∈ q, pyIsSpace c = false)
    (hshape : nl ≠ [] → ∃ t, pa = '/' :: t) :
    urlsplitM (urlunsplitP sch nl pa q []) = some (sch, nl, pa, q, []) := by
  have hfil : (urlunsplitP sch nl pa q []).filter
      (fun c => !(c = '\t' || c = '\r' || c = '\n')) =
      urlunsplitP sch nl pa q [] :=
    List.filter_eq_self.mpr fun c hc => by
      rcases urlunsplitP_mem sch nl pa q [] c hc with
        h | h | h | h | h | rfl | rfl | rfl | rfl
      · exact notTab_of_not_space c (hwsch c h)
      · exact notTab_of_not_space c (hwnl c h)
      · exact notTab_of_not_space c (hwpa c h)
      · exact notTab_of_not_space c (hwq c h)
      · exact absurd h (List.not_mem_nil c)
      · decide
      · decide
      · decide
      · decide
  have hqnotin : '?' ∉ pa := fun hm => (hpa _ hm).2 rfl
  have hnum : '#' ∉ pa ++ (if q = [] then [] else '?' :: q) := by
    intro hm
    rcases List.mem_append.mp hm with h | h
    · exact (hpa _ h).1 rfl
    · by_cases h0 : q = []
      · rw [if_pos h0] at h
        exact absurd h (List.not_mem_nil _)
      · rw [if_neg h0] at h
        rcases List.mem_cons.mp h with he | h2
        · exact absurd he (by decide)
        · exact (hq _ h2).1 rfl
  by_cases hC : nl ≠ [] ∨ leadMatch ['/', '/'] pa = true
  · obtain ⟨pt, hpt⟩ : ∃ t, pa = '/' :: t := by
      rcases hC with hnl2 | hlm2
      · exact hshape hnl2
      · obtain ⟨t, ht⟩ := leadMatch_slash2_shape pa hlm2
        exact ⟨'/' :: t, ht⟩
    have hlm1 : leadMatch ['/'] pa = true := by
      rw [hpt]
      simp [leadMatch]
    have hw1 : urlunsplitP sch nl pa q [] =
        sch ++ ':' :: ('/' :: '/' :: (nl ++ pa ++
          (if q = [] then [] else '?' :: q))) := by
      simp only [urlunsplitP]
      rw [if_pos hC,
        if_neg (show ¬(pa ≠ [] ∧ ¬leadMatch ['/'] pa = true) from
          fun hco => hco.2 hlm1),
        if_pos hsch_ne]
      rw [if_neg (show ¬(([] : Str) ≠ []) from fun hx => hx rfl)]
      by_cases hq0 : q = []
      · rw [if_neg (show ¬(q ≠ []) from fun hx => hx hq0), if_pos hq0,
          List.append_nil]
      · rw [if_pos hq0, if_neg hq0]
        simp [List.append_assoc]
    rw [hw1] at hfil ⊢
    simp only [urlsplitM]
    rw [hfil,
      splitSchemePart_of_valid sch _ hsch_ne hsch_hd hsch_all hsch_low]
    dsimp only
    rw [if_pos (show leadMatch ['/', '/'] ('/' :: '/' :: (nl ++ pa ++
      (if q = [] then [] else '?' :: q))) = true from by simp [leadMatch])]
    have hsplitn : splitNetlocPart (List.drop 2 ('/' :: '/' :: (nl ++ pa ++
        (if q = [] then [] else '?' :: q)))) =
        (nl, pa ++ (if q = [] then [] else '?' :: q)) := by
      rw [show List.drop 2 ('/' :: '/' :: (nl ++ pa ++
        (if q = [] then [] else '?' :: q))) = nl ++ pa ++
        (if q = [] then [] else '?' :: q) from rfl]
      rw [List.append_assoc, hpt, List.cons_append]
      exact splitNetlocPart_reconstruct nl '/'
        (pt ++ (if q = [] then [] else '?' :: q)) hnl (by decide)
    rw [hsplitn]
    dsimp only
    rw [hbr, if_neg (by decide), splitAtCh_none '#' _ hnum]
    dsimp only
    by_cases hq0 : q = []
    · rw [if_pos hq0, List.append_nil, splitAtCh_none '?' pa hqnotin]
      dsimp only
      rw [hq0]
    · rw [if_neg hq0, splitAtCh_append '?' pa q hqnotin]
  · rw [not_or] at hC
    obtain ⟨hnl0', hno'⟩ := hC
    have hnl0 : nl = [] := not_ne_iff.mp hnl0'
    have hno : leadMatch ['/', '/'] pa = false := Bool.eq_false_iff.mpr hno'
    subst hnl0
    have hw1 : urlunsplitP sch [] pa q [] =
        sch ++ ':' :: (pa ++ (if q = [] then [] else '?' :: q)) := by
      simp only [urlunsplitP]
      rw [if_neg (show ¬(([] : Str) ≠ [] ∨ leadMatch ['/', '/'] pa = true)
          from by
        rw [not_or]
        exact ⟨fun hx => hx rfl, hno'⟩), if_pos hsch_ne]
      rw [if_neg (show ¬(([] : Str) ≠ []) from fun hx => hx rfl)]
      by_cases hq0 : q = []
      · rw [if_neg (show ¬(q ≠ []) from fun hx => hx hq0), if_pos hq0,
          List.append_nil]
      · rw [if_pos hq0, if_neg hq0]
        simp [List.append_assoc]
    rw [hw1] at hfil ⊢
    simp only [urlsplitM]
    rw [hfil,
      splitSchemePart_of_valid sch _ hsch_ne hsch_hd hsch_all hsch_low]
    dsimp only
    have hqphead : leadMatch ['/'] (if q = [] then [] else '?' :: q) =
        false := by
      by_cases hq0 : q = []
      · rw [if_pos hq0]
        rfl
      · rw [if_neg hq0]
        show (decide ('/' = '?') && leadMatch [] q) = false
        rw [show decide ('/' = '?') = false from by decide, Bool.false_and]
    rw [if_neg (show ¬(leadMatch ['/', '/'] (pa ++
        (if q = [] then [] else '?' :: q)) = true) from by
      rw [leadMatch2_append pa _ hpa_ne hno hqphead]
      simp)]
    dsimp only
    rw [if_neg (by decide), splitAtCh_none '#' _ hnum]
    dsimp only
    by_cases hq0 : q = []
    · rw [if_pos hq0, List.append_nil, splitAtCh_none '?' pa hqnotin]
      dsimp only
      rw [hq0]
    · rw [if_neg hq0, splitAtCh_append '?' pa q hqnotin]

theorem urlunparseP_nil_params (a b c d : Str) :
    urlunparseP a b c [] d [] = urlunsplitP a b c d [] := by
  unfold urlunparseP
  rw [if_neg (show ¬(([] : Str) ≠ []) from fun hx => hx rfl)]

theorem urlparse_round2 (sch nl pa q : Str)
    (hsch_ne : sch ≠ []) (hsch_hd : isAsciiAlpha (sch.headD 'a') = true)
    (hsch_all : sch.all schemeChar = true) (hsch_low : lowerStr sch = sch)
    (hnl : ∀ c ∈ nl, netlocDelim c = false)
    (hbr : bracketsOk nl = true)
    (hpa_ne : pa ≠ [])
    (hpa : ∀ c ∈ pa, c ≠ '#' ∧ c ≠ '?')
    (hq : ∀ c ∈ q, c ≠ '#' ∧ c ≠ '?')
    (hwsch : ∀ c ∈ sch, pyIsSpace c = false)
    (hwnl : ∀ c ∈ nl, pyIsSpace c = false)
    (hwpa : ∀ c ∈ pa, pyIsSpace c = false)
    (hwq : ∀ c ∈ q, pyIsSpace c = false)
    (hshape : nl ≠ [] → ∃ t, pa = '/' :: t)
    (hsemi : ';' ∉ pa) :
    urlparseM (urlunsplitP sch nl pa q []) =
      some ⟨sch, nl, pa, [], q, []⟩ := by
  unfold urlparseM
  rw [urlsplit_round2 sch nl pa q hsch_ne hsch_hd hsch_all hsch_low hnl hbr
    hpa_ne hpa hq hwsch hwnl hwpa hwq hshape]
  dsimp only
  rw [if_neg hsemi]

theorem normalize_url_idem (u v : Str)
    (hws : ∀ c ∈ u, pyIsSpace c = false) (hsemi : ';' ∉ u)
    (h : normalize_url u = some v) : normalize_url v = some v := by
  unfold normalize_url at h
  rw [pyStrip_eq_self u hws] at h
  cases hp : urlparseM u with
  | none =>
    rw [hp] at h
    exact absurd h (by simp)
  | some P =>
    rw [hp] at h
    dsimp only at h
    obtain ⟨F1, F2, F3, F4, F5, F6, F7, F8⟩ := urlparse_facts u hws hsemi P hp
    rw [F8] at h
    have hv := (Option.some.inj h).symm
    obtain ⟨hs2ne, hs2hd, hs2all, hs2low, hs2nothttp, hs2ws⟩ :=
      scheme2_facts P.scheme _ F1 F2 rfl
    obtain ⟨hp2ne, hp2chars, hp2idem, hp2shape⟩ := path2_facts P.path _ F6 rfl
    have hnl2 : ∀ c ∈ lowerStr P.netloc, netlocDelim c = false := by
      intro c hc
      rcases List.mem_map.mp hc with ⟨c0, hc0, rfl⟩
      exact netlocDelim_toLower c0 (F3 c0 hc0)
    have hnl2ws : ∀ c ∈ lowerStr P.netloc, pyIsSpace c = false := by
      intro c hc
      rcases List.mem_map.mp hc with ⟨c0, hc0, rfl⟩
      exact pyIsSpace_toLower c0 (F4 c0 hc0)
    have hbr2 : bracketsOk (lowerStr P.netloc) = true := bracketsOk_lowerStr _ F5
    have hp2pairs : ∀ c ∈ (if rstripSlash P.path = [] then ['/']
        else rstripSlash P.path), c ≠ '#' ∧ c ≠ '?' :=
      fun c hc => ⟨(hp2chars c hc).1, (hp2chars c hc).2.1⟩
    have hp2ws : ∀ c ∈ (if rstripSlash P.path = [] then ['/']
        else rstripSlash P.path), pyIsSpace c = false :=
      fun c hc => (hp2chars c hc).2.2.1
    have hsemi2 : ';' ∉ (if rstripSlash P.path = [] then ['/']
        else rstripSlash P.path) :=
      fun hm => (hp2chars ';' hm).2.2.2 rfl
    have hshape2 : lowerStr P.netloc ≠ [] →
        ∃ t, (if rstripSlash P.path = [] then ['/']
          else rstripSlash P.path) = '/' :: t := by
      intro hne
      have hne0 : P.netloc ≠ [] := by
        intro h0
        exact hne (by rw [h0]; rfl)
      exact hp2shape (F7 hne0)
    have hq2 : ∀ c ∈ urlencodeL ((parseQsl P.query).filter
        fun kv => !leadMatch ("utm_".toList) (lowerStr kv.1)),
        c ≠ '#' ∧ c ≠ '?' :=
      fun c hc => (urlencode_char_props _ c hc).2
    have hq2ws : ∀ c ∈ urlencodeL ((parseQsl P.query).filter
        fun kv => !leadMatch ("utm_".toList) (lowerStr kv.1)),
        pyIsSpace c = false :=
      fun c hc => (urlencode_char_props _ c hc).1
    have hvu : v = urlunsplitP
        (if (if P.scheme = [] then "https".toList else P.scheme) =
            "http".toList then "https".toList
          else (if P.scheme = [] then "https".toList else P.scheme))
        (lowerStr P.netloc)
        (if rstripSlash P.path = [] then ['/'] else rstripSlash P.path)
        (urlencodeL ((parseQsl P.query).filter
          fun kv => !leadMatch ("utm_".toList) (lowerStr kv.1))) [] := by
      rw [hv, urlunparseP_nil_params]
    have hvws : ∀ c ∈ v, pyIsSpace c = false := by
      rw [hvu]
      intro c hc
      rcases urlunsplitP_mem _ _ _ _ _ c hc with
        h' | h' | h' | h' | h' | rfl | rfl | rfl | rfl
      · exact hs2ws c h'
      · exact hnl2ws c h'
      · exact hp2ws c h'
      · exact hq2ws c h'
      · exact absurd h' (List.not_mem_nil c)
      · decide
      · decide
      · decide
      · decide
    unfold normalize_url
    rw [pyStrip_eq_self v hvws, hvu]
    rw [urlparse_round2 _ _ _ _ hs2ne hs2hd hs2all hs2low hnl2 hbr2
      hp2ne hp2pairs hq2 hs2ws hnl2ws hp2ws hq2ws hshape2 hsemi2]
    dsimp only
    rw [parseQsl_urlencodeL]
    rw [List.filter_eq_self.mpr (fun kv hm => (List.mem_filter.mp hm).2)]
    rw [hp2idem]
    rw [if_neg hs2ne, if_neg hs2nothttp]
    rw [lowerStr_idem]
    rw [urlunparseP_nil_params]

/-- C8 counterexample: `normalize_url` is not idempotent in general.  A `;`
in the last path segment shields a trailing `/` from the first
`path.rstrip("/")` (the slash ends up inside the `params` component) but not
from the second round, where it is the last character of the recombined
path; and a path ending in whitespace survives round one (only the fragment
follows it) but is removed by round two's `strip()`. -/
theorem normalize_url_idem_counterexample :
    (normalize_url ("https://h/a/;b/".toList) =
        some ("https://h/a/;b".toList) ∧
      normalize_url ("https://h/a/;b".toList) =
        some ("https://h/a;b".toList) ∧
      ("https://h/a/;b".toList : Str) ≠ "https://h/a;b".toList) ∧
    (normalize_url ("https://h/a #f".toList) =
        some ("https://h/a ".toList) ∧
      normalize_url ("https://h/a ".toList) =
        some ("https://h/a".toList) ∧
      ("https://h/a ".toList : Str) ≠ "https://h/a".toList) :=
  ⟨⟨by decide, by decide, by decide⟩, ⟨by decide, by decide, by decide⟩⟩

/-- C8 (amended): `normalize_url` is idempotent on every input that contains
no whitespace character and no `;`: whenever it maps such a `u` to a key
`v`, it maps `v` to `v` itself. -/
theorem normalize_url_idem_amended (u v : Str)
    (hws : ∀ c ∈ u, pyIsSpace c = false) (hsemi : ';' ∉ u)
    (h : normalize_url u = some v) : normalize_url v = some v :=
  normalize_url_idem u v hws hsemi h

/-- C8 witness: the amended idempotence theorem applied to the concrete URL
`https://example.com/a/?b=1`, whose key is `https://example.com/a?b=1`. -/
theorem normalize_url_idem_amended_witness :
    (∀ c ∈ ("https://example.com/a/?b=1".toList : Str),
      pyIsSpace c = false) ∧
    ';' ∉ ("https://example.com/a/?b=1".toList : Str) ∧
    normalize_url ("https://example.com/a/?b=1".toList) =
      some ("https://example.com/a?b=1".toList) ∧
    normalize_url ("https://example.com/a?b=1".toList) =
      some ("https://example.com/a?b=1".toList) :=
  ⟨by decide, by decide, by decide,
    normalize_url_idem_amended ("https://example.com/a/?b=1".toList)
      ("https://example.com/a?b=1".toList)
      (by decide) (by decide) (by decide)⟩
